import Mathlib

/-!
Verification of the action pipeline of the AnyText browser extension
(`src/browser-extension/background.js` and
`src/browser-extension/core/ai-service-manager.js`).

The JavaScript fallback transformers are built from `String.replace` with
regexes of the shape `/\bword\b/gi` (whole-word, case-insensitive, global),
plus a sentence splitter `split(/[.!?]+/)`, a capitalize-after-punctuation
rule `/([.!?])\s*([a-z])/g`, and dictionary lookups.  We embed these at the
character-list level: `replaceWB` is the left-to-right scanner semantics of
a global regex replace of a literal pattern guarded by `\b` on both sides.
JavaScript `\w` is `[A-Za-z0-9_]`; `\b` holds at a position whose two
neighbouring characters (string ends counting as non-word) differ in
word-character status.  Case folding is ASCII, matching the patterns used
by the source (all ASCII).
-/

/-- JavaScript word character `\w` = `[A-Za-z0-9_]`. -/
def jsWordChar (c : Char) : Bool :=
  ('a' ≤ c && c ≤ 'z') || ('A' ≤ c && c ≤ 'Z') || ('0' ≤ c && c ≤ '9') || c == '_'

/-- Word-character status of an optional character; absence (string edge)
counts as non-word, as in JavaScript `\b`. -/
def isWordB : Option Char → Bool
  | none => false
  | some c => jsWordChar c

/-- JavaScript `\b`: the two sides of a position differ in word-character
status. -/
def bdry (a b : Option Char) : Bool :=
  isWordB a != isWordB b

/-- ASCII lower-casing, as applied by the `i` regex flag to the ASCII
patterns of the source. -/
def jsLower (c : Char) : Char :=
  if 'A' ≤ c && c ≤ 'Z' then Char.ofNat (c.toNat + 32) else c

/-- ASCII upper-casing (used on `[a-z]` captures only). -/
def jsUpper (c : Char) : Char :=
  if 'a' ≤ c && c ≤ 'z' then Char.ofNat (c.toNat - 32) else c

/-- One-character match under an optional case-insensitivity flag. -/
def charMatch (ci : Bool) (p c : Char) : Bool :=
  if ci then jsLower p == jsLower c else p == c

/-- Try to strip the literal pattern `p` from the front of `s`; on success
return the last matched character of `s` together with the rest of `s`.
The empty pattern is treated as unmatched (every pattern in the source is a
non-empty literal). -/
def stripCIAux (ci : Bool) : List Char → List Char → Option (Char × List Char)
  | [p0], c :: cs => if charMatch ci p0 c then some (c, cs) else none
  | p0 :: p1 :: ps, c :: cs =>
      if charMatch ci p0 c then stripCIAux ci (p1 :: ps) cs else none
  | _, _ => none

/-- A `\bp\b` match attempt at the current position: `prev` is the character
just before the position (`none` at the start of the string).  Returns the
last matched character and the remainder on success. -/
def matchWB (ci : Bool) (p : List Char) (prev : Option Char) (s : List Char) :
    Option (Char × List Char) :=
  match s with
  | [] => none
  | c :: _ =>
    if bdry prev (some c) then
      match stripCIAux ci p s with
      | some (m, rest) => if bdry (some m) rest.head? then some (m, rest) else none
      | none => none
    else none

/-- Scanner for the global replace `s.replace(/\bp\b/g[i], r)`: walk the
string left to right; at each position either a `\b`-guarded match of `p`
starts (emit `r`, resume after the matched text) or the character is copied.
The `skip` counter realises "resume after the matched text" structurally:
after a match of length `n` at `c :: cs` we emit `r` and skip the remaining
`n - 1` matched characters of `cs`. -/
def replaceWBAux (ci : Bool) (p r : List Char) :
    Option Char → Nat → List Char → List Char
  | _, _, [] => []
  | _, Nat.succ k, c :: cs => replaceWBAux ci p r (some c) k cs
  | prev, 0, c :: cs =>
    match matchWB ci p prev (c :: cs) with
    | some (_, rest) => r ++ replaceWBAux ci p r (some c) (cs.length - rest.length) cs
    | none => c :: replaceWBAux ci p r (some c) 0 cs

/-- `s.replace(/\bp\b/g[i], r)` on character lists. -/
def replaceWB (ci : Bool) (p r : List Char) (s : List Char) : List Char :=
  replaceWBAux ci p r none 0 s

/-- Apply a dictionary of whole-word case-insensitive substitutions in
order, as the source's `Object.entries(dict).forEach` / chained `.replace`
calls do. -/
def applyRules (rules : List (String × String)) (s : List Char) : List Char :=
  rules.foldl (fun acc pr => replaceWB true pr.1.toList pr.2.toList acc) s

example : replaceWB true "teh".toList "the".toList "teh cat".toList = "the cat".toList := by decide
example : replaceWB true "can't".toList "cannot".toList "Can't stop".toList = "cannot stop".toList := by decide
example : replaceWB true "teh".toList "the".toList "tehn".toList = "tehn".toList := by decide

/-- JavaScript whitespace `\s` (ASCII part; the source only ever meets
ASCII whitespace). -/
def jsSpace (c : Char) : Bool :=
  c == ' ' || c == '\t' || c == '\n' || c == '\x0d' ||
  c == Char.ofNat 11 || c == Char.ofNat 12

/-- `String.prototype.trim` on character lists. -/
def jsTrim (l : List Char) : List Char :=
  ((l.dropWhile jsSpace).reverse.dropWhile jsSpace).reverse

/-- Sentence-ending punctuation class `[.!?]` of the source. -/
def isSentSep (c : Char) : Bool :=
  c == '.' || c == '!' || c == '?'

/-- Auxiliary for `text.split(/[.!?]+/)`: `inSep` records that we are inside
a (maximal) run of separators, `acc` the current piece reversed. -/
def splitSepsAux : Bool → List Char → List Char → List (List Char)
  | true, _, [] => [[]]
  | false, acc, [] => [acc.reverse]
  | true, a, c :: cs =>
      if isSentSep c then splitSepsAux true a cs else splitSepsAux false [c] cs
  | false, acc, c :: cs =>
      if isSentSep c then acc.reverse :: splitSepsAux true [] cs
      else splitSepsAux false (c :: acc) cs

/-- `text.split(/[.!?]+/)`: pieces of `text` between maximal runs of
sentence-ending punctuation (a leading or trailing run contributes an empty
piece, as in JavaScript). -/
def splitSeps (l : List Char) : List (List Char) :=
  splitSepsAux false [] l

example : splitSeps "A. B? C! D. E.".toList =
    ["A".toList, " B".toList, " C".toList, " D".toList, " E".toList, []] := by decide
example : splitSeps ".a".toList = [[], "a".toList] := by decide
example : splitSeps "a..b".toList = ["a".toList, "b".toList] := by decide

/-- `[a-z]` of the capitalize-after-punctuation regex. -/
def isLowerAlpha (c : Char) : Bool :=
  'a' ≤ c && c ≤ 'z'

/-- Scanner for `corrected.replace(/([.!?])\s*([a-z])/g, (m, punct, letter)
=> punct + " " + letter.toUpperCase())`.  The first argument is `none` in
normal scanning and `some (punct, wsRev)` while we sit on a sentence-ending
character followed so far by the reversed whitespace run `wsRev`; `\s*` is
effectively maximal because `[a-z]` never matches a whitespace character. -/
def capRun : Option (Char × List Char) → List Char → List Char
  | none, [] => []
  | none, c :: cs =>
      if isSentSep c then capRun (some (c, [])) cs else c :: capRun none cs
  | some (p, ws), [] => p :: ws.reverse
  | some (p, ws), c :: cs =>
      if jsSpace c then capRun (some (p, c :: ws)) cs
      else if isLowerAlpha c then p :: ' ' :: jsUpper c :: capRun none cs
      else if isSentSep c then p :: (ws.reverse ++ capRun (some (c, [])) cs)
      else p :: (ws.reverse ++ (c :: capRun none cs))

/-- The capitalize-after-punctuation pass of the Proofread fallback. -/
def capAfterPunct (l : List Char) : List Char :=
  capRun none l

example : capAfterPunct ".a".toList = ". A".toList := by decide
example : capAfterPunct ".. a".toList = ".. A".toList := by decide
example : capAfterPunct "a.b.c".toList = "a. B. C".toList := by decide
example : capAfterPunct "ok.   done".toList = "ok. Done".toList := by decide

/-! ## The fallback transformers of `background.js` -/

/-- The `corrections` dictionary of `getFallbackProofreading`
(`background.js:643`), in insertion order. -/
def corrections : List (String × String) :=
  [("teh", "the"), ("recieve", "receive"), ("seperate", "separate"),
   ("occured", "occurred"), ("definately", "definitely"), ("thier", "their"),
   ("there", "their"), ("your", "you're"), ("its", "it's"),
   ("loose", "lose"), ("affect", "effect"), ("then", "than")]

/-- `getFallbackProofreading` (`background.js:639`): the corrections
dictionary (whole-word, case-insensitive), then `/\bi\b/g → "I"`
(case-sensitive), then capitalization after sentence punctuation. -/
def getFallbackProofreading (text : String) : String :=
  String.mk (capAfterPunct
    (replaceWB false "i".toList "I".toList (applyRules corrections text.toList)))

/-- The `improvements` dictionary of `getFallbackRewriting`
(`background.js:701`), in insertion order. -/
def improvements : List (String × String) :=
  [("can't", "cannot"), ("won't", "will not"), ("don't", "do not"),
   ("isn't", "is not"), ("aren't", "are not"), ("wasn't", "was not"),
   ("weren't", "were not"), ("hasn't", "has not"), ("haven't", "have not"),
   ("hadn't", "had not"), ("shouldn't", "should not"),
   ("wouldn't", "would not"), ("couldn't", "could not"),
   ("mustn't", "must not"), ("gonna", "going to"), ("wanna", "want to"),
   ("gotta", "have to"), ("kinda", "somewhat"), ("sorta", "sort of"),
   ("lots of", "many"), ("a lot of", "many")]

/-- `getFallbackRewriting` (`background.js:697`). -/
def getFallbackRewriting (text : String) : String :=
  String.mk (applyRules improvements text.toList)

/-- Filter used by `getFallbackSummarization`: keep pieces whose trimmed
form is non-empty (`(s) => s.trim().length > 0`). -/
def sentencesOf (l : List Char) : List (List Char) :=
  (splitSeps l).filter (fun s => decide (0 < (jsTrim s).length))

/-- `getFallbackSummarization` (`background.js:756`). -/
def getFallbackSummarization (text : String) : String :=
  if (sentencesOf text.toList).length ≤ 2 then text
  else if (sentencesOf text.toList).length ≤ 4 then
    String.mk (List.intercalate ". ".toList ((sentencesOf text.toList).take 2) ++ ['.'])
  else
    String.mk ((sentencesOf text.toList).headD [] ++ ". ".toList ++
      (sentencesOf text.toList).getD ((sentencesOf text.toList).length / 2) [] ++ ". ".toList ++
      (sentencesOf text.toList).getLastD [] ++ ['.'])

/-- Tone tables of `getFallbackToneChange` (`background.js:818`), each the
chain of `.replace(/\b…\b/gi, …)` calls in source order. -/
def professionalRules : List (String × String) :=
  [("can't", "cannot"), ("won't", "will not"), ("don't", "do not"),
   ("isn't", "is not"), ("I think", "I believe"), ("kinda", "somewhat"),
   ("gonna", "going to"), ("wanna", "want to"), ("yeah", "yes"),
   ("okay", "acceptable")]

def casualRules : List (String × String) :=
  [("cannot", "can't"), ("will not", "won't"), ("do not", "don't"),
   ("is not", "isn't"), ("I believe", "I think"), ("going to", "gonna"),
   ("want to", "wanna")]

def straightforwardRules : List (String × String) :=
  [("I think that maybe", "I think"), ("perhaps", ""),
   ("might be able to", "can"), ("would like to", "want to"),
   ("kind of", ""), ("sort of", "")]

def confidentRules : List (String × String) :=
  [("I think", "I know"), ("might", "will"), ("could", "can"),
   ("maybe", "definitely"), ("probably", "certainly"),
   ("I guess", "I believe")]

def friendlyRules : List (String × String) :=
  [("Hello", "Hi there"), ("Thank you", "Thanks so much"),
   ("Regards", "Best wishes")]

/-- `transformed.match(/[!😊]$/)` of the friendly tone: the string ends in
`!` or in the emoji. -/
def endsBangOrSmile (l : List Char) : Bool :=
  match l.getLast? with
  | some c => c == '!' || c == '😊'
  | none => false

/-- `transformed.replace(/\.$/, "! 😊")`. -/
def replaceFinalDot (l : List Char) : List Char :=
  match l.getLast? with
  | some c => if c == '.' then l.dropLast ++ "! 😊".toList else l
  | none => l

/-- `getFallbackToneChange` (`background.js:818`): tone-specific
substitution tables; the friendly tone additionally turns a final `.` into
`! 😊` when the text does not already end in `!` or the emoji; an
unrecognized tone returns the text unchanged. -/
def getFallbackToneChange (text tone : String) : String :=
  if tone = "professional" then String.mk (applyRules professionalRules text.toList)
  else if tone = "casual" then String.mk (applyRules casualRules text.toList)
  else if tone = "straightforward" then String.mk (applyRules straightforwardRules text.toList)
  else if tone = "confident" then String.mk (applyRules confidentRules text.toList)
  else if tone = "friendly" then
    String.mk (if endsBangOrSmile (applyRules friendlyRules text.toList) then
      applyRules friendlyRules text.toList
    else replaceFinalDot (applyRules friendlyRules text.toList))
  else text

/-- ASCII `text.toLowerCase()` (the dictionary keys are ASCII). -/
def lowerStr (l : List Char) : List Char :=
  l.map jsLower

/-- The `fallbackTranslations` dictionaries of `getFallbackTranslation`
(`background.js:575`). -/
def fallbackTranslations : List (String × List (String × String)) :=
  [("es", [("hello", "hola"), ("goodbye", "adiós"), ("thank you", "gracias"),
           ("please", "por favor"), ("yes", "sí"), ("no", "no")]),
   ("fr", [("hello", "bonjour"), ("goodbye", "au revoir"),
           ("thank you", "merci"), ("please", "s'il vous plaît"),
           ("yes", "oui"), ("no", "non")]),
   ("de", [("hello", "hallo"), ("goodbye", "auf wiedersehen"),
           ("thank you", "danke"), ("please", "bitte"), ("yes", "ja"),
           ("no", "nein")])]

/-- The message returned by `getFallbackTranslation` when no dictionary
entry applies. -/
def translationUnavailableMessage (languageName : String) : String :=
  "Translation to " ++ languageName ++
    " is currently unavailable. Chrome Built-in AI needs to be enabled in chrome://flags (search for \"Prompt API for Gemini Nano\")."

/-- The dictionary lookup of `getFallbackTranslation`:
`fallbackTranslations[targetLanguage]` and then `translations[lowerText]`. -/
def lookupTranslation (targetLanguage : String) (lowerText : String) :
    Option String :=
  (fallbackTranslations.lookup targetLanguage).bind fun d => d.lookup lowerText

/-- `getFallbackTranslation` (`background.js:573`): look up the lowercased,
trimmed text in a small per-language dictionary; otherwise return a fixed
unavailability message naming the target language. -/
def getFallbackTranslation (text targetLanguage languageName : String) : String :=
  match lookupTranslation targetLanguage (String.mk (jsTrim (lowerStr text.toList))) with
  | some t => t
  | none => translationUnavailableMessage languageName

/-- `prompt.includes(pat)` on character lists. -/
def containsSub (hay pat : List Char) : Bool :=
  match hay with
  | [] => pat.isEmpty
  | _ :: t => pat.isPrefixOf hay || containsSub t pat

/-- The templates of `getFallbackGeneration` (`background.js:955`). -/
def emailTemplate (text : String) : String :=
  "Subject: Regarding " ++ text ++ "\n\nDear [Recipient],\n\nI hope this message finds you well. I wanted to reach out regarding " ++ text ++ ".\n\nPlease let me know if you have any questions or if there's anything I can help with.\n\nBest regards,\n[Your Name]"

def listTemplate (text : String) : String :=
  "Here are some key points about " ++ text ++ ":\n\n1. First consideration\n2. Important aspect to remember\n3. Next steps to take\n4. Final recommendations\n\nNote: AI generation is currently unavailable. Enable Chrome Built-in AI in chrome://flags for better results."

def overviewTemplate (text : String) : String :=
  "Overview of " ++ text ++ ":\n\nThis topic involves several key components that are worth considering. The main aspects include the fundamental principles, practical applications, and potential outcomes.\n\nFor more detailed AI-generated content, please enable Chrome Built-in AI in chrome://flags."

def genericTemplate (text : String) : String :=
  "Generated content for \"" ++ text ++ "\":\n\nThis is a basic template response. The topic you've mentioned is interesting and could be expanded upon in several ways. Consider the key aspects, potential applications, and relevant details.\n\nFor advanced AI generation, please enable Chrome Built-in AI in chrome://flags (search for \"Prompt API for Gemini Nano\")."

/-- `getFallbackGeneration` (`background.js:955`): keyword sniffing on the
lowercased, trimmed prompt selects one of four templates. -/
def genPrompt (text : String) : List Char :=
  jsTrim (lowerStr text.toList)

def getFallbackGeneration (text : String) : String :=
  if containsSub (genPrompt text) "email".toList || containsSub (genPrompt text) "message".toList then
    emailTemplate text
  else if containsSub (genPrompt text) "list".toList || containsSub (genPrompt text) "steps".toList then
    listTemplate text
  else if containsSub (genPrompt text) "summary".toList || containsSub (genPrompt text) "overview".toList then
    overviewTemplate text
  else genericTemplate text

/-! ## The request router `handleAIRequest` (`background.js:412`) -/

/-- The fields of an `AI_REQUEST` message that the router reads. -/
structure AIRequest where
  action : String
  text : String
  targetLanguage : String
  languageName : String
  tone : String
deriving DecidableEq

/-- The message the router sends back to the page.  The source only ever
constructs `aiResult`; `aiError` is the shape an error reply would have (it
exists in an earlier draft of the router) and is here to express that the
shipped router never produces it. -/
inductive SentMessage where
  | aiResult (action originalText result : String)
  | aiError (action errorMessage : String)
deriving DecidableEq

/-- The six actions with a dedicated branch (and fallback) in the router. -/
def knownActions : List String :=
  ["translate", "changeTone", "proofread", "rewrite", "summarize", "generate"]

/-- The fallback dispatch of the router's `catch` branch
(`background.js:456`); the default arm is the error-path template for
unknown actions. -/
def fallbackResult (msg : AIRequest) : String :=
  if msg.action = "translate" then
    getFallbackTranslation msg.text msg.targetLanguage msg.languageName
  else if msg.action = "changeTone" then
    getFallbackToneChange msg.text msg.tone
  else if msg.action = "proofread" then getFallbackProofreading msg.text
  else if msg.action = "rewrite" then getFallbackRewriting msg.text
  else if msg.action = "summarize" then getFallbackSummarization msg.text
  else if msg.action = "generate" then getFallbackGeneration msg.text
  else "AI processing failed. " ++ msg.text

/-- The `processingPromise` dispatch (`background.js:434`): each `perform…`
helper returns the backend's reply when the model call succeeds and that
action's fallback when it throws or times out (`backend = none`); an
unknown action resolves to the `[PROCESSED]` template. -/
def processAction (msg : AIRequest) (backend : Option String) : String :=
  if knownActions.contains msg.action then
    match backend with
    | some s => s
    | none => fallbackResult msg
  else "[PROCESSED] " ++ msg.text

/-- The string carried by the `AI_RESULT` reply: the race winner when the
10-second timeout did not fire, the catch-branch fallback when it did. -/
def resultOf (msg : AIRequest) (backend : Option String) (timedOut : Bool) :
    String :=
  if timedOut then fallbackResult msg else processAction msg backend

/-- `handleAIRequest` (`background.js:412`): every request resolves to a
single `AI_RESULT` message echoing the action and original text. -/
def handleAIRequest (msg : AIRequest) (backend : Option String)
    (timedOut : Bool) : SentMessage :=
  SentMessage.aiResult msg.action msg.text (resultOf msg backend timedOut)

/-! ## The session manager (`AIServiceManager`, `background.js:10`) -/

/-- The manager state relevant to initialization: `isInitialized` and the
stored `initializationPromise`.  In a sequential run every stored promise
has settled by the time it is consulted again, so the marker is modelled as
the settled boolean result of the stored attempt. -/
structure MgrState where
  isInitialized : Bool
  initializationPromise : Option Bool
deriving DecidableEq

/-- One complete `initializeAPIs()` call (`background.js:40`) run to
completion in an environment where the `LanguageModel` global is
`langModelPresent` and `LanguageModel.create` succeeds iff `createOk`.
Returns the boolean the promise resolves to, the manager state afterwards,
and the number of `LanguageModel.create` attempts made by this call.  A
stored promise is returned as-is (the source never clears
`initializationPromise` except in `reinitialize`); otherwise
`_performInitialization` runs: absent backend fails fast without a create
attempt, otherwise one create attempt is made (the `availability()` probe's
exception is swallowed by the source, so creation is always attempted). -/
def initializeAPIsRun (langModelPresent createOk : Bool) (st : MgrState) :
    Bool × MgrState × Nat :=
  match st.initializationPromise with
  | some b => (b, st, 0)
  | none =>
    if !langModelPresent then
      (false, ⟨false, some false⟩, 0)
    else if createOk then
      (true, ⟨true, some true⟩, 1)
    else
      (false, ⟨false, some false⟩, 1)

/-- The synchronous prefix of `initializeAPIs()` as seen by overlapping
callers: before any suspension the call either finds a stored
`initializationPromise` and returns it, or launches
`_performInitialization()` and stores its promise.  `Nat` promise
identities; `launches` counts `_performInitialization` launches. -/
structure FlightState where
  initializationPromise : Option Nat
deriving DecidableEq

def initializeAPIsStart (st : FlightState) (nextId launches : Nat) :
    Nat × FlightState × Nat × Nat :=
  match st.initializationPromise with
  | some pid => (pid, st, nextId, launches)
  | none => (nextId, ⟨some nextId⟩, nextId + 1, launches + 1)

/-! ## Engine-side initialization path (`performProofreading`,
`background.js:613`, and `initializeAI`, `background.js:510`) -/

/-- Observable events of one engine request. -/
inductive EngineEvent where
  | ensureReadyCall
  | delayMs (n : Nat)
  | promptCall
deriving DecidableEq

/-- Environment of one `performProofreading` call: whether the manager is
already initialized, whether an `initializeAI()` attempt would succeed, and
the model reply (`none` = the prompt threw or timed out). -/
structure EngineEnv where
  managerInitialized : Bool
  initSucceeds : Bool
  promptReply : Option String
deriving DecidableEq

/-- `performProofreading` (`background.js:613`) with its event trace: if
the manager is not initialized it calls `initializeAI()` once and, when
that fails, throws `"AI services not available"`, which the `catch` turns
into the fallback — with no delay and no second attempt.  When a session is
available the prompt call's failure also falls back. -/
def performProofreadingTrace (env : EngineEnv) (text : String) :
    String × List EngineEvent :=
  if env.managerInitialized then
    match env.promptReply with
    | some s => (s, [EngineEvent.promptCall])
    | none => (getFallbackProofreading text, [EngineEvent.promptCall])
  else if env.initSucceeds then
    match env.promptReply with
    | some s => (s, [EngineEvent.ensureReadyCall, EngineEvent.promptCall])
    | none => (getFallbackProofreading text,
               [EngineEvent.ensureReadyCall, EngineEvent.promptCall])
  else
    (getFallbackProofreading text, [EngineEvent.ensureReadyCall])

/-! ## Decidable match-region checkers

These support reasoning about `replaceWB` on strings of the shape
`known ++ x` with `x` arbitrary: `stripFailsOn` certifies that the pattern
fails against `known` before ever reaching `x`, `noMatchIn` that no match
can start inside `known`, and `stripsAll` that the pattern consumes exactly
`known`. -/

/-- `stripFailsOn ci p known = true` guarantees the pattern mismatch happens
inside `known`, whatever follows it. -/
def stripFailsOn (ci : Bool) : List Char → List Char → Bool
  | [p0], c :: _ => !(charMatch ci p0 c)
  | p0 :: p1 :: ps, c :: cs =>
      if charMatch ci p0 c then stripFailsOn ci (p1 :: ps) cs else true
  | _, _ => false

/-- `noMatchIn ci p prev known = true` guarantees no `\b``p``\b` match can
start at any position of `known` (with `prev` before it), whatever follows
`known`. -/
def noMatchIn (ci : Bool) (p : List Char) : Option Char → List Char → Bool
  | _, [] => true
  | prev, c :: cs =>
      (!bdry prev (some c) || stripFailsOn ci p (c :: cs)) &&
        noMatchIn ci p (some c) cs

/-- `stripsAll ci p kn = true`: the pattern consumes exactly `kn`. -/
def stripsAll (ci : Bool) : List Char → List Char → Bool
  | [], [] => true
  | p0 :: ps, c :: cs => charMatch ci p0 c && stripsAll ci ps cs
  | _, _ => false

/-- The character preceding the continuation after scanning `l` (used to
state how `replaceWBAux` resumes after a copied or matched region). -/
def lastPrev (prev : Option Char) : List Char → Option Char
  | [] => prev
  | c :: cs => lastPrev (some c) cs

/-- The contraction entries of the `improvements` table, capitalized as a
page user would type them at the start of a sentence, with their fixed
lowercase replacements. -/
def contractionTests : List (String × String) :=
  [("Can't", "cannot"), ("Won't", "will not"), ("Don't", "do not"),
   ("Isn't", "is not"), ("Aren't", "are not"), ("Wasn't", "was not"),
   ("Weren't", "were not"), ("Hasn't", "has not"), ("Haven't", "have not"),
   ("Hadn't", "had not"), ("Shouldn't", "should not"),
   ("Wouldn't", "would not"), ("Couldn't", "could not"),
   ("Mustn't", "must not")]

/-! ## Match scanners and junction checkers for the idempotence proofs -/

/-- `p` strips from the front of `s` and the position after the matched
text is a `\b` boundary (the end-boundary part of a `\bp\b` match; the
start boundary is checked separately). -/
def okStripTail (ci : Bool) (p s : List Char) : Bool :=
  match stripCIAux ci p s with
  | some (m, rest) => bdry (some m) rest.head?
  | none => false

/-- Some position of `s` (scanned with `prev` before its first character)
carries a `\bp\b` match. -/
def hasMatchAux (ci : Bool) (p : List Char) : Option Char → List Char → Bool
  | _, [] => false
  | prev, c :: cs =>
      (matchWB ci p prev (c :: cs)).isSome || hasMatchAux ci p (some c) cs

/-- `blockKill ci q u = true`: matching the pattern suffix `q` against
`u ++ z` can never yield a boundary-valid match, for any `z` whose first
character is a non-word character (or which is empty).  `u` is a
replacement block; `z` is whatever the scanner emits after it. -/
def blockKill (ci : Bool) : List Char → List Char → Bool
  | [], _ => true
  | q0 :: _, [] => jsWordChar q0
  | [q0], c :: cs =>
      if charMatch ci q0 c then
        match cs with
        | [] => !jsWordChar c
        | c1 :: _ => !bdry (some c) (some c1)
      else true
  | q0 :: q1 :: qs, c :: cs =>
      if charMatch ci q0 c then blockKill ci (q1 :: qs) cs else true

/-- `blockScanKill ci p w u = true`: no `\bp\b` match can start at any
position inside the block `u` (scanned after a character of word-status
`w`), for any continuation with a non-word-or-absent first character. -/
def blockScanKill (ci : Bool) (p : List Char) : Bool → List Char → Bool
  | _, [] => true
  | w, c :: cs =>
      ((w == jsWordChar c) || blockKill ci p (c :: cs)) &&
        blockScanKill ci p (jsWordChar c) cs

/-- All conditions on a substitution rule `(pat, rep)` under which applying
it preserves the absence of `\bp\b` matches (and, for `p = pat.toList`,
removes them): the rule's pattern and replacement are non-empty and
word-edged, every suffix of `p` is killed by the replacement block, and no
`p` match can start inside the replacement block. -/
def crossOK (ci : Bool) (p : List Char) (rule : String × String) : Bool :=
  !rule.1.toList.isEmpty && !rule.2.toList.isEmpty &&
  isWordB rule.1.toList.head? && isWordB rule.1.toList.getLast? &&
  isWordB rule.2.toList.head? && isWordB rule.2.toList.getLast? &&
  (p.tails.all fun q => blockKill ci q rule.2.toList) &&
  blockScanKill ci p false rule.2.toList

/-- Per-rule-list soundness for idempotence: each rule satisfies its own
`crossOK` conditions (self-cleanliness) and those of every later rule
(cross-preservation). -/
def rulesOK (ci : Bool) : List (String × String) → Bool
  | [] => true
  | ru :: rest =>
      crossOK ci ru.1.toList ru &&
      rest.all (fun r2 => crossOK ci ru.1.toList r2) &&
      rulesOK ci rest

/-- A match of the capitalize-after-punctuation regex at the head of `l`:
a sentence-ending character whose following whitespace run is followed by
a lowercase letter. -/
def capAfterWs (cs : List Char) : Bool :=
  match cs.dropWhile jsSpace with
  | d :: _ => isLowerAlpha d
  | [] => false

/-- Some position of `l` starts a capitalize-after-punctuation match. -/
def hasCapMatch : List Char → Bool
  | [] => false
  | c :: cs => (isSentSep c && capAfterWs cs) || hasCapMatch cs

/-- The input segment corresponding to a `capRun` state: in state
`some (P, ws)` the scanner sits on the sentence-ending character `P`
having collected the (reversed) whitespace run `ws`. -/
def capInp (st : Option (Char × List Char)) (l : List Char) : List Char :=
  match st with
  | none => l
  | some (P, ws) => P :: (ws.reverse ++ l)

/-! ## Basic lemmas -/

theorem toList_mk (l : List Char) : (String.mk l).toList = l := rfl

theorem stringMk_ne_empty {l : List Char} (h : l ≠ []) : String.mk l ≠ "" := by
  intro he
  exact h (congrArg String.toList he)

theorem toList_eq_nil_iff {s : String} : s.toList = [] ↔ s = "" := by
  cases s with
  | mk d =>
    constructor
    · intro h
      exact congrArg String.mk h
    · intro h
      exact congrArg String.toList h

theorem append_ne_empty_left {a b : String} (h : a ≠ "") : a ++ b ≠ "" := by
  intro he
  apply h
  cases a with
  | mk d =>
    cases b with
    | mk e =>
      have hd : d ++ e = [] := congrArg String.toList he
      have : d = [] := (List.append_eq_nil.mp hd).1
      exact congrArg String.mk this

/-! ## Non-emptiness of the fallback transformers -/

theorem replaceWB_ne_nil {ci : Bool} {p r s : List Char} (hr : r ≠ [])
    (hs : s ≠ []) : replaceWB ci p r s ≠ [] := by
  cases s with
  | nil => exact absurd rfl hs
  | cons c cs =>
    unfold replaceWB replaceWBAux
    cases h : matchWB ci p none (c :: cs) with
    | some mr => simp [h, hr]
    | none => simp [h]

theorem applyRules_ne_nil {rules : List (String × String)} {s : List Char}
    (hr : ∀ pr ∈ rules, pr.2 ≠ "") (hs : s ≠ []) : applyRules rules s ≠ [] := by
  induction rules generalizing s with
  | nil => exact hs
  | cons pr rs ih =>
    have h1 : pr.2.toList ≠ [] := by
      intro he
      exact hr pr (by simp) (toList_eq_nil_iff.mp he)
    have h2 : replaceWB true pr.1.toList pr.2.toList s ≠ [] :=
      replaceWB_ne_nil h1 hs
    exact ih (fun q hq => hr q (by simp [hq])) h2

theorem capRun_some_ne_nil (p : Char) (ws l : List Char) :
    capRun (some (p, ws)) l ≠ [] := by
  induction l generalizing ws with
  | nil => simp [capRun]
  | cons c cs ih =>
    unfold capRun
    by_cases h1 : jsSpace c
    · simp [h1]
      exact ih (c :: ws)
    · by_cases h2 : isLowerAlpha c <;> by_cases h3 : isSentSep c <;> simp [h1, h2, h3]

theorem capAfterPunct_ne_nil {l : List Char} (hl : l ≠ []) :
    capAfterPunct l ≠ [] := by
  cases l with
  | nil => exact absurd rfl hl
  | cons c cs =>
    unfold capAfterPunct capRun
    by_cases h : isSentSep c
    · simp [h]
      exact capRun_some_ne_nil c [] cs
    · simp [h]

theorem getFallbackProofreading_ne_empty {text : String} (h : text ≠ "") :
    getFallbackProofreading text ≠ "" := by
  apply stringMk_ne_empty
  apply capAfterPunct_ne_nil
  apply replaceWB_ne_nil (by decide)
  apply applyRules_ne_nil (by decide)
  exact fun he => h (toList_eq_nil_iff.mp he)

theorem getFallbackRewriting_ne_empty {text : String} (h : text ≠ "") :
    getFallbackRewriting text ≠ "" := by
  apply stringMk_ne_empty
  apply applyRules_ne_nil (by decide)
  exact fun he => h (toList_eq_nil_iff.mp he)

theorem getFallbackSummarization_ne_empty {text : String} (h : text ≠ "") :
    getFallbackSummarization text ≠ "" := by
  unfold getFallbackSummarization
  split
  · exact h
  · split
    · apply stringMk_ne_empty
      simp
    · apply stringMk_ne_empty
      simp

theorem lookup_val_ne_empty {d : List (String × String)}
    (hd : ∀ pr ∈ d, pr.2 ≠ "") {k v : String} (h : d.lookup k = some v) :
    v ≠ "" := by
  induction d with
  | nil => simp [List.lookup] at h
  | cons a t ih =>
    rw [List.lookup] at h
    by_cases he : k == a.1
    · simp [he] at h
      exact h ▸ hd a (by simp)
    · simp [he] at h
      exact ih (fun q hq => hd q (by simp [hq])) h

theorem lookup_mem_vals {α β : Type} [BEq α] {d : List (α × β)} {k : α}
    {v : β} (h : d.lookup k = some v) : v ∈ d.map Prod.snd := by
  induction d with
  | nil => simp [List.lookup] at h
  | cons a t ih =>
    rw [List.lookup] at h
    by_cases he : k == a.1
    · simp [he] at h
      simp [h]
    · simp [he] at h
      simp [ih h]

theorem lookupTranslation_ne_empty {tl k v : String}
    (h : lookupTranslation tl k = some v) : v ≠ "" := by
  unfold lookupTranslation at h
  cases hd : fallbackTranslations.lookup tl with
  | none =>
    rw [hd] at h
    simp at h
  | some d =>
    rw [hd] at h
    simp only [Option.some_bind] at h
    have hdm : d ∈ fallbackTranslations.map Prod.snd := lookup_mem_vals hd
    have hvals : ∀ e ∈ fallbackTranslations.map Prod.snd, ∀ q ∈ e, q.2 ≠ "" := by
      decide
    exact lookup_val_ne_empty (hvals d hdm) h

theorem translationUnavailableMessage_ne_empty (ln : String) :
    translationUnavailableMessage ln ≠ "" := by
  unfold translationUnavailableMessage
  exact append_ne_empty_left (append_ne_empty_left (by decide))

theorem getFallbackTranslation_ne_empty (text tl ln : String) :
    getFallbackTranslation text tl ln ≠ "" := by
  unfold getFallbackTranslation
  split
  · next v hv => exact lookupTranslation_ne_empty hv
  · next hv => exact translationUnavailableMessage_ne_empty ln

theorem getFallbackGeneration_ne_empty (text : String) :
    getFallbackGeneration text ≠ "" := by
  unfold getFallbackGeneration emailTemplate listTemplate overviewTemplate genericTemplate
  split_ifs <;> (repeat apply append_ne_empty_left) <;> decide

theorem replaceFinalDot_ne_nil {l : List Char} (h : l ≠ []) :
    replaceFinalDot l ≠ [] := by
  unfold replaceFinalDot
  cases hg : l.getLast? with
  | none => simpa [hg]
  | some c =>
    by_cases hc : c == '.'
    · simp [hg, hc]
    · simpa [hg, hc]

theorem getFallbackToneChange_ne_empty {text tone : String} (h : text ≠ "")
    (hst : tone ≠ "straightforward") : getFallbackToneChange text tone ≠ "" := by
  have htl : text.toList ≠ [] := fun he => h (toList_eq_nil_iff.mp he)
  unfold getFallbackToneChange
  split_ifs with h1 h2 h3 h4 h5
  · exact stringMk_ne_empty (applyRules_ne_nil (by decide) htl)
  · exact stringMk_ne_empty (applyRules_ne_nil (by decide) htl)
  · exact stringMk_ne_empty (applyRules_ne_nil (by decide) htl)
  · exact stringMk_ne_empty (applyRules_ne_nil (by decide) htl)
  · exact stringMk_ne_empty (replaceFinalDot_ne_nil (applyRules_ne_nil (by decide) htl))
  · exact h

/-! ## Claim theorems -/

/-- C1 (counterexample): the Translate fallback is not the identity — on
input "hello" with target language "es" it returns the dictionary entry
"hola", not the original text. -/
theorem translate_fallback_not_identity :
    getFallbackTranslation "hello" "es" "Spanish" = "hola" ∧
    getFallbackTranslation "hello" "es" "Spanish" ≠ "hello" := by
  constructor
  · rfl
  · decide

/-- C1 (amended): the Translate fallback returns the per-language
dictionary entry for the lowercased, trimmed input when one exists, and
otherwise a fixed unavailability message naming the target language — in
neither case the original text in general. -/
theorem translate_fallback_characterization (text tl ln : String) :
    (∀ v, lookupTranslation tl (String.mk (jsTrim (lowerStr text.toList))) = some v →
      getFallbackTranslation text tl ln = v) ∧
    (lookupTranslation tl (String.mk (jsTrim (lowerStr text.toList))) = none →
      getFallbackTranslation text tl ln = translationUnavailableMessage ln) := by
  constructor
  · intro v hv
    unfold getFallbackTranslation
    rw [hv]
  · intro hn
    unfold getFallbackTranslation
    rw [hn]

/-- Witness for C1 (amended) at concrete inputs: a dictionary hit and a
dictionary miss. -/
theorem translate_fallback_characterization_witness :
    getFallbackTranslation "thank you" "fr" "French" = "merci" ∧
    getFallbackTranslation "good morning" "fr" "French" =
      translationUnavailableMessage "French" := by
  constructor
  · exact (translate_fallback_characterization "thank you" "fr" "French").1 "merci" (by decide)
  · exact (translate_fallback_characterization "good morning" "fr" "French").2 (by decide)

/-- C2: after a failed initialization (backend present, creation throws),
`initializationPromise` keeps the settled failed promise: the first
`initializeAPIs()` makes one creation attempt and fails, and a second
`initializeAPIs()` returns the cached result with zero new creation
attempts, leaving the manager uninitialized — the stored in-flight marker
is never cleared on failure, contrary to the claim. -/
theorem initializeAPIs_failure_keeps_promise :
    initializeAPIsRun true false ⟨false, none⟩ = (false, ⟨false, some false⟩, 1) ∧
    initializeAPIsRun true false
        (initializeAPIsRun true false ⟨false, none⟩).2.1 =
      (false, ⟨false, some false⟩, 0) := by
  decide

/-- C3 (counterexample): the ChangeTone fallback with tone
"straightforward" maps the non-empty text "perhaps" to the empty string,
so the router's `AI_RESULT` carries an empty `result` for a non-empty
`originalText`. -/
theorem straightforward_tone_empties_result :
    handleAIRequest ⟨"changeTone", "perhaps", "", "", "straightforward"⟩ none true =
      SentMessage.aiResult "changeTone" "perhaps" "" ∧
    "perhaps" ≠ ("" : String) := by
  constructor
  · rfl
  · decide

/-- C3 (amended): on every fallback path (backend failed or the request
timed out), a non-empty input yields a non-empty `result` — except for the
ChangeTone action with tone "straightforward", whose hedge-deleting
substitutions can erase the whole text. -/
theorem fallback_result_nonempty (msg : AIRequest) (timedOut : Bool)
    (htext : msg.text ≠ "")
    (hexc : ¬(msg.action = "changeTone" ∧ msg.tone = "straightforward")) :
    resultOf msg none timedOut ≠ "" := by
  have hfb : fallbackResult msg ≠ "" := by
    unfold fallbackResult
    split_ifs with h1 h2 h3 h4 h5 h6
    · exact getFallbackTranslation_ne_empty _ _ _
    · exact getFallbackToneChange_ne_empty htext (fun hs => hexc ⟨h2, hs⟩)
    · exact getFallbackProofreading_ne_empty htext
    · exact getFallbackRewriting_ne_empty htext
    · exact getFallbackSummarization_ne_empty htext
    · exact getFallbackGeneration_ne_empty _
    · exact append_ne_empty_left (by decide)
  unfold resultOf
  split
  · exact hfb
  · unfold processAction
    split
    · exact hfb
    · exact append_ne_empty_left (by decide)

/-- Witness for C3 (amended): a timed-out Proofread request with non-empty
text gets a non-empty fallback result. -/
theorem fallback_result_nonempty_witness :
    resultOf ⟨"proofread", "teh cat", "", "", ""⟩ none true ≠ "" :=
  fallback_result_nonempty ⟨"proofread", "teh cat", "", "", ""⟩ true
    (by decide) (by decide)

/-- C4: for the six fallback-capable actions the router never sends an
error-shaped message: for every backend outcome and timeout state it sends
exactly one `AI_RESULT` carrying a string result and echoing the action and
original text, and on the failure path that string is the action's
fallback. -/
theorem router_never_errors (msg : AIRequest) (backend : Option String)
    (timedOut : Bool) (h : msg.action ∈ knownActions) :
    (∃ r, handleAIRequest msg backend timedOut =
        SentMessage.aiResult msg.action msg.text r) ∧
    (∀ a e, handleAIRequest msg backend timedOut ≠ SentMessage.aiError a e) ∧
    handleAIRequest msg none true =
      SentMessage.aiResult msg.action msg.text (fallbackResult msg) := by
  refine ⟨⟨resultOf msg backend timedOut, rfl⟩, fun a e => by simp [handleAIRequest], ?_⟩
  unfold handleAIRequest resultOf
  rfl

/-- Witness for C4: a Translate request whose backend failed. -/
theorem router_never_errors_witness :
    (∃ r, handleAIRequest ⟨"translate", "hi", "es", "Spanish", ""⟩ none false =
        SentMessage.aiResult "translate" "hi" r) ∧
    (∀ a e, handleAIRequest ⟨"translate", "hi", "es", "Spanish", ""⟩ none false ≠
        SentMessage.aiError a e) ∧
    handleAIRequest ⟨"translate", "hi", "es", "Spanish", ""⟩ none true =
      SentMessage.aiResult "translate" "hi"
        (fallbackResult ⟨"translate", "hi", "es", "Spanish", ""⟩) :=
  router_never_errors ⟨"translate", "hi", "es", "Spanish", ""⟩ none false (by decide)

/-- C5 (counterexample): with the manager not ready and initialization
failing, `performProofreading` makes exactly one `initializeAI` call, no
delay of any length, and goes straight to the fallback — there is no
delayed retry. -/
theorem proofread_no_delayed_retry :
    performProofreadingTrace ⟨false, false, none⟩ "test" =
      (getFallbackProofreading "test", [EngineEvent.ensureReadyCall]) ∧
    (performProofreadingTrace ⟨false, false, none⟩ "test").2.count
        EngineEvent.ensureReadyCall = 1 ∧
    ((performProofreadingTrace ⟨false, false, none⟩ "test").2.all fun e =>
        match e with
        | EngineEvent.delayMs _ => false
        | _ => true) = true := by
  refine ⟨rfl, rfl, rfl⟩

/-- C5 (amended): when the Session Manager reports not-ready the Engine
performs no delayed retry at all: `performProofreading` calls
`initializeAI()` once and, on failure, routes directly to the fallback
transformer. -/
theorem proofread_not_ready_immediate_fallback (env : EngineEnv) (text : String)
    (h1 : env.managerInitialized = false) (h2 : env.initSucceeds = false) :
    performProofreadingTrace env text =
      (getFallbackProofreading text, [EngineEvent.ensureReadyCall]) := by
  unfold performProofreadingTrace
  rw [h1, h2]
  simp

/-- Witness for C5 (amended). -/
theorem proofread_not_ready_immediate_fallback_witness :
    performProofreadingTrace ⟨false, false, none⟩ "x" =
      (getFallbackProofreading "x", [EngineEvent.ensureReadyCall]) :=
  proofread_not_ready_immediate_fallback ⟨false, false, none⟩ "x" rfl rfl

/-- C6: initialization is single-flight — a first `initializeAPIs()` call
finding no stored promise launches exactly one `_performInitialization`
and stores its promise; a second call made while that attempt is in flight
returns the same stored promise and launches nothing new. -/
theorem initializeAPIs_single_flight (st : FlightState) (n l : Nat)
    (h : st.initializationPromise = none) :
    ∃ pid st1 n1,
      initializeAPIsStart st n l = (pid, st1, n1, l + 1) ∧
      initializeAPIsStart st1 n1 (l + 1) = (pid, st1, n1, l + 1) := by
  cases st with
  | mk ip =>
    cases ip with
    | none => exact ⟨n, ⟨some n⟩, n + 1, rfl, rfl⟩
    | some pid => simp at h

/-- Witness for C6. -/
theorem initializeAPIs_single_flight_witness :
    ∃ pid st1 n1,
      initializeAPIsStart ⟨none⟩ 0 0 = (pid, st1, n1, 0 + 1) ∧
      initializeAPIsStart st1 n1 (0 + 1) = (pid, st1, n1, 0 + 1) :=
  initializeAPIs_single_flight ⟨none⟩ 0 0 rfl

/-- C7: the Summarize fallback length rule — with at most two (trim-)
non-empty sentences the text is returned unchanged, and with exactly five
sentences S1..S5 the result is `S1. S3. S5.` (first, middle, last), the
pieces joined by `". "` with a trailing period. -/
theorem summarize_length_rule (text : String) :
    ((sentencesOf text.toList).length ≤ 2 → getFallbackSummarization text = text) ∧
    (∀ s1 s2 s3 s4 s5, sentencesOf text.toList = [s1, s2, s3, s4, s5] →
      getFallbackSummarization text =
        String.mk (s1 ++ ". ".toList ++ s3 ++ ". ".toList ++ s5 ++ ['.'])) := by
  constructor
  · intro h
    unfold getFallbackSummarization
    rw [if_pos h]
  · intro s1 s2 s3 s4 s5 h
    unfold getFallbackSummarization
    rw [h]
    simp

/-- Witness for C7: a five-sentence text and a two-sentence text. -/
theorem summarize_length_rule_witness :
    getFallbackSummarization "One. Two! Three? Four. Five." =
      String.mk ("One".toList ++ ". ".toList ++ " Three".toList ++ ". ".toList ++
        " Five".toList ++ ['.']) ∧
    getFallbackSummarization "Hi. Bye." = "Hi. Bye." := by
  constructor
  · exact (summarize_length_rule "One. Two! Three? Four. Five.").2
      "One".toList " Two".toList " Three".toList " Four".toList " Five".toList
      (by decide)
  · exact (summarize_length_rule "Hi. Bye.").1 (by decide)

/-- C9: a request whose action is none of the six known ones still
resolves to a single `AI_RESULT`: `[PROCESSED] ` followed by the text on
the normal path, `AI processing failed. ` followed by the text when the
timeout fired — never an error-shaped message. -/
theorem router_unknown_action (msg : AIRequest) (backend : Option String)
    (timedOut : Bool) (h : msg.action ∉ knownActions) :
    handleAIRequest msg backend timedOut =
      SentMessage.aiResult msg.action msg.text
        (if timedOut then "AI processing failed. " ++ msg.text
         else "[PROCESSED] " ++ msg.text) ∧
    (∀ a e, handleAIRequest msg backend timedOut ≠ SentMessage.aiError a e) := by
  have hc : knownActions.contains msg.action = false := by
    simpa using h
  have hne : ∀ s ∈ knownActions, ¬ msg.action = s := fun s hs he => h (he ▸ hs)
  constructor
  · unfold handleAIRequest resultOf processAction fallbackResult
    cases timedOut with
    | true =>
      simp only [if_true]
      rw [if_neg (hne "translate" (by decide)), if_neg (hne "changeTone" (by decide)),
        if_neg (hne "proofread" (by decide)), if_neg (hne "rewrite" (by decide)),
        if_neg (hne "summarize" (by decide)), if_neg (hne "generate" (by decide))]
    | false =>
      simp only [Bool.false_eq_true, if_false, hc]
  · intro a e
    simp [handleAIRequest]

/-- Witness for C9, at the unknown action "frobnicate". -/
theorem router_unknown_action_witness :
    handleAIRequest ⟨"frobnicate", "hi", "", "", ""⟩ none true =
      SentMessage.aiResult "frobnicate" "hi"
        (if true then "AI processing failed. " ++ "hi"
         else "[PROCESSED] " ++ "hi") ∧
    (∀ a e, handleAIRequest ⟨"frobnicate", "hi", "", "", ""⟩ none true ≠
        SentMessage.aiError a e) :=
  router_unknown_action ⟨"frobnicate", "hi", "", "", ""⟩ none true (by decide)

/-! ## Region lemmas for `replaceWB` on `known ++ x` -/

theorem stripFailsOn_sound {ci : Bool} : ∀ p kn, stripFailsOn ci p kn = true →
    ∀ x, stripCIAux ci p (kn ++ x) = none := by
  intro p
  induction p with
  | nil =>
    intro kn h x
    cases kn <;> simp [stripFailsOn] at h
  | cons p0 ps ih =>
    intro kn h x
    cases ps with
    | nil =>
      cases kn with
      | nil => simp [stripFailsOn] at h
      | cons c cs =>
        simp [stripFailsOn] at h
        simp [stripCIAux, h]
    | cons p1 ps' =>
      cases kn with
      | nil => simp [stripFailsOn] at h
      | cons c cs =>
        by_cases hm : charMatch ci p0 c
        · simp only [stripFailsOn, if_pos hm] at h
          simp [stripCIAux, hm, ih cs h x]
        · simp [stripCIAux, hm]

theorem replaceWBAux_cons_nomatch {ci : Bool} {p r : List Char}
    {prev : Option Char} {c : Char} {cs : List Char}
    (h : matchWB ci p prev (c :: cs) = none) :
    replaceWBAux ci p r prev 0 (c :: cs) =
      c :: replaceWBAux ci p r (some c) 0 cs := by
  simp only [replaceWBAux]
  rw [h]

theorem replaceWBAux_cons_match {ci : Bool} {p r : List Char}
    {prev : Option Char} {c : Char} {cs : List Char} {m : Char}
    {rest : List Char} (h : matchWB ci p prev (c :: cs) = some (m, rest)) :
    replaceWBAux ci p r prev 0 (c :: cs) =
      r ++ replaceWBAux ci p r (some c) (cs.length - rest.length) cs := by
  simp only [replaceWBAux]
  rw [h]

theorem noMatchIn_sound {ci : Bool} {p r : List Char} :
    ∀ (kn : List Char) (prev : Option Char), noMatchIn ci p prev kn = true →
    ∀ x, replaceWBAux ci p r prev 0 (kn ++ x) =
      kn ++ replaceWBAux ci p r (lastPrev prev kn) 0 x := by
  intro kn
  induction kn with
  | nil => intro prev h x; rfl
  | cons c cs ih =>
    intro prev h x
    simp only [noMatchIn, Bool.and_eq_true, Bool.or_eq_true] at h
    obtain ⟨h1, h2⟩ := h
    have hm : matchWB ci p prev (c :: (cs ++ x)) = none := by
      unfold matchWB
      by_cases hb : bdry prev (some c)
      · rcases h1 with h1 | h1
        · simp [hb] at h1
        · have := stripFailsOn_sound p (c :: cs) h1 x
          simp only [List.cons_append] at this
          simp [hb, this]
      · simp [hb]
    rw [List.cons_append, replaceWBAux_cons_nomatch hm, ih (some c) h2 x]
    rfl

theorem stripsAll_strip {ci : Bool} : ∀ (p kn : List Char) (m : Char),
    stripsAll ci p kn = true → kn.getLast? = some m →
    ∀ x, stripCIAux ci p (kn ++ x) = some (m, x) := by
  intro p
  induction p with
  | nil =>
    intro kn m h hl x
    cases kn with
    | nil => simp at hl
    | cons c cs => simp [stripsAll] at h
  | cons p0 ps ih =>
    intro kn m h hl x
    cases kn with
    | nil => simp [stripsAll] at h
    | cons c cs =>
      simp only [stripsAll, Bool.and_eq_true] at h
      obtain ⟨hm, hrest⟩ := h
      cases ps with
      | nil =>
        cases cs with
        | nil =>
          simp at hl
          subst hl
          simp [stripCIAux, hm]
        | cons c1 cs' => simp [stripsAll] at hrest
      | cons p1 ps' =>
        cases cs with
        | nil => simp [stripsAll] at hrest
        | cons c1 cs' =>
          rw [List.getLast?_cons_cons] at hl
          have hrec := ih (c1 :: cs') m hrest hl x
          rw [List.cons_append]
          simp only [stripCIAux, hm, if_true]
          simpa using hrec

theorem lastPrev_getLast : ∀ (l : List Char) (prev : Option Char) (m : Char),
    l.getLast? = some m → lastPrev prev l = some m := by
  intro l
  induction l with
  | nil => intro prev m h; simp at h
  | cons c cs ih =>
    intro prev m h
    cases cs with
    | nil =>
      simp at h
      subst h
      rfl
    | cons c1 cs' =>
      rw [List.getLast?_cons_cons] at h
      exact ih (some c) m h

theorem skipRun {ci : Bool} {p r : List Char} :
    ∀ (t z : List Char) (prev : Option Char),
    replaceWBAux ci p r prev t.length (t ++ z) =
      replaceWBAux ci p r (lastPrev prev t) 0 z := by
  intro t
  induction t with
  | nil => intro z prev; rfl
  | cons c cs ih =>
    intro z prev
    simp only [List.cons_append, List.length_cons, replaceWBAux]
    exact ih z (some c)

theorem replaceWB_head {ci : Bool} (p r kn : List Char) (m : Char) (y : List Char)
    (hstrip : stripsAll ci p kn = true)
    (hpne : p ≠ [])
    (hb1 : bdry none kn.head? = true)
    (hlast : kn.getLast? = some m)
    (hb2 : bdry (some m) (some ' ') = true)
    (hsp : stripFailsOn ci p [' '] = true) :
    replaceWB ci p r (kn ++ ' ' :: y) =
      r ++ ' ' :: replaceWBAux ci p r (some ' ') 0 y := by
  cases p with
  | nil => exact absurd rfl hpne
  | cons p0 ps =>
    cases kn with
    | nil => simp [stripsAll] at hstrip
    | cons c cs =>
      have hs := stripsAll_strip (p0 :: ps) (c :: cs) m hstrip hlast (' ' :: y)
      rw [List.cons_append] at hs
      have hb1' : bdry none (some c) = true := hb1
      have hmw : matchWB ci (p0 :: ps) none (c :: (cs ++ ' ' :: y)) =
          some (m, ' ' :: y) := by
        simp only [matchWB, hb1', if_true, hs, List.head?_cons]
        rw [if_pos hb2]
      have hsp' : matchWB ci (p0 :: ps) (some m) (' ' :: y) = none := by
        have hnostrip := stripFailsOn_sound (p0 :: ps) [' '] hsp y
        simp only [List.singleton_append] at hnostrip
        simp [matchWB, hnostrip]
      have hlen : (cs ++ ' ' :: y).length - (' ' :: y).length = cs.length := by
        simp
      unfold replaceWB
      rw [List.cons_append, replaceWBAux_cons_match hmw, hlen]
      have hskip := @skipRun ci (p0 :: ps) r cs (' ' :: y) (some c)
      rw [hskip]
      have hlp : lastPrev (some c) cs = some m := lastPrev_getLast (c :: cs) none m hlast
      rw [hlp, replaceWBAux_cons_nomatch hsp']

theorem applyRules_cons (pr : String × String) (rs : List (String × String))
    (s : List Char) :
    applyRules (pr :: rs) s = applyRules rs (replaceWB true pr.1.toList pr.2.toList s) := rfl

theorem applyRules_append (as bs : List (String × String)) (s : List Char) :
    applyRules (as ++ bs) s = applyRules bs (applyRules as s) := by
  simp [applyRules, List.foldl_append]

theorem applyRules_keeps_head (rules : List (String × String)) (A : List Char)
    (h : ∀ pr ∈ rules, noMatchIn true pr.1.toList none A = true) :
    ∀ x, ∃ y, applyRules rules (A ++ x) = A ++ y := by
  induction rules with
  | nil => exact fun x => ⟨x, rfl⟩
  | cons pr rs ih =>
    intro x
    have h1 := @noMatchIn_sound _ _ pr.2.toList A none (h pr (by simp)) x
    obtain ⟨y, hy⟩ := ih (fun q hq => h q (by simp [hq]))
      (replaceWBAux true pr.1.toList pr.2.toList (lastPrev none A) 0 x)
    exact ⟨y, by rw [applyRules_cons, replaceWB, h1, hy]⟩

/-- A capitalized whole word `kn` at the start of the text followed by a
space: the rules before its own rule leave it in place, its own rule
replaces it by the fixed lowercase expansion, and the rules after preserve
that expansion. -/
theorem applyRules_capitalized_step
    (pre post : List (String × String)) (pat exp : String)
    (kn : List Char) (m : Char)
    (hpre : ∀ pr ∈ pre, noMatchIn true pr.1.toList none (kn ++ [' ']) = true)
    (hpost : ∀ pr ∈ post, noMatchIn true pr.1.toList none (exp.toList ++ [' ']) = true)
    (hstrip : stripsAll true pat.toList kn = true)
    (hpne : pat.toList ≠ [])
    (hb1 : bdry none kn.head? = true)
    (hlast : kn.getLast? = some m)
    (hb2 : bdry (some m) (some ' ') = true)
    (hsp : stripFailsOn true pat.toList [' '] = true) :
    ∀ x, ∃ y, applyRules (pre ++ (pat, exp) :: post) (kn ++ ' ' :: x) =
      exp.toList ++ ' ' :: y := by
  intro x
  rw [applyRules_append]
  have hx : kn ++ ' ' :: x = (kn ++ [' ']) ++ x := by simp
  rw [hx]
  obtain ⟨x1, hx1⟩ := applyRules_keeps_head pre (kn ++ [' ']) hpre x
  rw [hx1]
  rw [applyRules_cons]
  have hx2 : (kn ++ [' ']) ++ x1 = kn ++ ' ' :: x1 := by simp
  rw [hx2]
  rw [replaceWB_head pat.toList exp.toList kn m x1 hstrip hpne hb1 hlast hb2 hsp]
  have hx3 : exp.toList ++ ' ' ::
      replaceWBAux true pat.toList exp.toList (some ' ') 0 x1 =
      (exp.toList ++ [' ']) ++
        replaceWBAux true pat.toList exp.toList (some ' ') 0 x1 := by simp
  rw [hx3]
  obtain ⟨y, hy⟩ := applyRules_keeps_head post (exp.toList ++ [' ']) hpost
    (replaceWBAux true pat.toList exp.toList (some ' ') 0 x1)
  rw [hy]
  exact ⟨y, by simp⟩

/-- C10: the Rewrite fallback matches contractions case-insensitively but
substitutes fixed lowercase replacements, so capitalization is not
preserved: every input starting with a capitalized contraction of the
table followed by a space comes out starting with the lowercase expansion,
e.g. "Can't stop" becomes "cannot stop". -/
theorem rewrite_lowercases_capitalized_contractions :
    (∀ pr ∈ contractionTests, ∀ x : List Char,
      ∃ y, (getFallbackRewriting (String.mk (pr.1.toList ++ ' ' :: x))).toList =
        pr.2.toList ++ ' ' :: y) ∧
    getFallbackRewriting "Can't stop" = "cannot stop" := by
  constructor
  · intro pr hpr x
    fin_cases hpr
    · simp only [getFallbackRewriting, toList_mk]
      rw [show improvements = improvements.take 0 ++ ("can\'t", "cannot") :: improvements.drop 1 by decide]
      exact applyRules_capitalized_step _ _ "can\'t" "cannot" "Can\'t".toList 't'
        (by decide) (by decide) (by decide) (by decide) (by decide) (by decide)
        (by decide) (by decide) x
    · simp only [getFallbackRewriting, toList_mk]
      rw [show improvements = improvements.take 1 ++ ("won\'t", "will not") :: improvements.drop 2 by decide]
      exact applyRules_capitalized_step _ _ "won\'t" "will not" "Won\'t".toList 't'
        (by decide) (by decide) (by decide) (by decide) (by decide) (by decide)
        (by decide) (by decide) x
    · simp only [getFallbackRewriting, toList_mk]
      rw [show improvements = improvements.take 2 ++ ("don\'t", "do not") :: improvements.drop 3 by decide]
      exact applyRules_capitalized_step _ _ "don\'t" "do not" "Don\'t".toList 't'
        (by decide) (by decide) (by decide) (by decide) (by decide) (by decide)
        (by decide) (by decide) x
    · simp only [getFallbackRewriting, toList_mk]
      rw [show improvements = improvements.take 3 ++ ("isn\'t", "is not") :: improvements.drop 4 by decide]
      exact applyRules_capitalized_step _ _ "isn\'t" "is not" "Isn\'t".toList 't'
        (by decide) (by decide) (by decide) (by decide) (by decide) (by decide)
        (by decide) (by decide) x
    · simp only [getFallbackRewriting, toList_mk]
      rw [show improvements = improvements.take 4 ++ ("aren\'t", "are not") :: improvements.drop 5 by decide]
      exact applyRules_capitalized_step _ _ "aren\'t" "are not" "Aren\'t".toList 't'
        (by decide) (by decide) (by decide) (by decide) (by decide) (by decide)
        (by decide) (by decide) x
    · simp only [getFallbackRewriting, toList_mk]
      rw [show improvements = improvements.take 5 ++ ("wasn\'t", "was not") :: improvements.drop 6 by decide]
      exact applyRules_capitalized_step _ _ "wasn\'t" "was not" "Wasn\'t".toList 't'
        (by decide) (by decide) (by decide) (by decide) (by decide) (by decide)
        (by decide) (by decide) x
    · simp only [getFallbackRewriting, toList_mk]
      rw [show improvements = improvements.take 6 ++ ("weren\'t", "were not") :: improvements.drop 7 by decide]
      exact applyRules_capitalized_step _ _ "weren\'t" "were not" "Weren\'t".toList 't'
        (by decide) (by decide) (by decide) (by decide) (by decide) (by decide)
        (by decide) (by decide) x
    · simp only [getFallbackRewriting, toList_mk]
      rw [show improvements = improvements.take 7 ++ ("hasn\'t", "has not") :: improvements.drop 8 by decide]
      exact applyRules_capitalized_step _ _ "hasn\'t" "has not" "Hasn\'t".toList 't'
        (by decide) (by decide) (by decide) (by decide) (by decide) (by decide)
        (by decide) (by decide) x
    · simp only [getFallbackRewriting, toList_mk]
      rw [show improvements = improvements.take 8 ++ ("haven\'t", "have not") :: improvements.drop 9 by decide]
      exact applyRules_capitalized_step _ _ "haven\'t" "have not" "Haven\'t".toList 't'
        (by decide) (by decide) (by decide) (by decide) (by decide) (by decide)
        (by decide) (by decide) x
    · simp only [getFallbackRewriting, toList_mk]
      rw [show improvements = improvements.take 9 ++ ("hadn\'t", "had not") :: improvements.drop 10 by decide]
      exact applyRules_capitalized_step _ _ "hadn\'t" "had not" "Hadn\'t".toList 't'
        (by decide) (by decide) (by decide) (by decide) (by decide) (by decide)
        (by decide) (by decide) x
    · simp only [getFallbackRewriting, toList_mk]
      rw [show improvements = improvements.take 10 ++ ("shouldn\'t", "should not") :: improvements.drop 11 by decide]
      exact applyRules_capitalized_step _ _ "shouldn\'t" "should not" "Shouldn\'t".toList 't'
        (by decide) (by decide) (by decide) (by decide) (by decide) (by decide)
        (by decide) (by decide) x
    · simp only [getFallbackRewriting, toList_mk]
      rw [show improvements = improvements.take 11 ++ ("wouldn\'t", "would not") :: improvements.drop 12 by decide]
      exact applyRules_capitalized_step _ _ "wouldn\'t" "would not" "Wouldn\'t".toList 't'
        (by decide) (by decide) (by decide) (by decide) (by decide) (by decide)
        (by decide) (by decide) x
    · simp only [getFallbackRewriting, toList_mk]
      rw [show improvements = improvements.take 12 ++ ("couldn\'t", "could not") :: improvements.drop 13 by decide]
      exact applyRules_capitalized_step _ _ "couldn\'t" "could not" "Couldn\'t".toList 't'
        (by decide) (by decide) (by decide) (by decide) (by decide) (by decide)
        (by decide) (by decide) x
    · simp only [getFallbackRewriting, toList_mk]
      rw [show improvements = improvements.take 13 ++ ("mustn\'t", "must not") :: improvements.drop 14 by decide]
      exact applyRules_capitalized_step _ _ "mustn\'t" "must not" "Mustn\'t".toList 't'
        (by decide) (by decide) (by decide) (by decide) (by decide) (by decide)
        (by decide) (by decide) x
  · decide

/-- Witness for C10, at the example of the claim. -/
theorem rewrite_lowercases_capitalized_contractions_witness :
    ∃ y, (getFallbackRewriting (String.mk ("Can't".toList ++ ' ' :: "stop".toList))).toList =
      "cannot".toList ++ ' ' :: y :=
  rewrite_lowercases_capitalized_contractions.1 ("Can't", "cannot") (by decide)
    "stop".toList


/-! ## Idempotence machinery: character and strip lemmas -/

theorem charOfNat_toNat {n : Nat} (h2 : n < 0xd800) : (Char.ofNat n).toNat = n := by
  have hv : n.isValidChar := Or.inl h2
  simp [Char.ofNat, hv, Char.ofNatAux, Char.toNat, UInt32.toNat, BitVec.toNat_ofNatLt]

theorem jsWordChar_jsLower (c : Char) : jsWordChar (jsLower c) = jsWordChar c := by
  unfold jsLower
  by_cases h : ('A' ≤ c && c ≤ 'Z') = true
  · rw [if_pos h]
    simp only [Bool.and_eq_true, decide_eq_true_eq] at h
    obtain ⟨h1, h2⟩ := h
    have hA : (65 : Nat) ≤ c.toNat := h1
    have hZ : c.toNat ≤ 90 := h2
    have ht : (Char.ofNat (c.toNat + 32)).toNat = c.toNat + 32 :=
      charOfNat_toNat (by omega)
    have hword : jsWordChar c = true := by
      have hAZ : ('A' ≤ c && c ≤ 'Z') = true := by
        simp only [Bool.and_eq_true, decide_eq_true_eq]
        exact ⟨h1, h2⟩
      simp [jsWordChar, hAZ]
    rw [hword]
    have haz : ('a' ≤ Char.ofNat (c.toNat + 32) &&
        Char.ofNat (c.toNat + 32) ≤ 'z') = true := by
      simp only [Bool.and_eq_true, decide_eq_true_eq]
      constructor
      · show (97 : Nat) ≤ (Char.ofNat (c.toNat + 32)).toNat
        rw [ht]
        omega
      · show (Char.ofNat (c.toNat + 32)).toNat ≤ 122
        rw [ht]
        omega
    simp [jsWordChar, haz]
  · rw [if_neg h]

theorem charMatch_word {ci : Bool} {a b : Char} (h : charMatch ci a b = true) :
    jsWordChar a = jsWordChar b := by
  unfold charMatch at h
  cases ci with
  | false =>
    simp at h
    rw [h]
  | true =>
    simp at h
    rw [← jsWordChar_jsLower a, ← jsWordChar_jsLower b, h]

theorem okStripTail_nil_pat {ci : Bool} (s : List Char) :
    okStripTail ci [] s = false := by
  cases s <;> rfl

theorem okStripTail_nil {ci : Bool} (p : List Char) :
    okStripTail ci p [] = false := by
  cases p with
  | nil => rfl
  | cons p0 ps => cases ps <;> rfl

theorem stripCIAux_cons_cons {ci : Bool} (q0 q1 : Char) (qs : List Char)
    (c : Char) (z : List Char) :
    stripCIAux ci (q0 :: q1 :: qs) (c :: z) =
      if charMatch ci q0 c then stripCIAux ci (q1 :: qs) z else none := rfl

theorem stripCIAux_one {ci : Bool} (q0 c : Char) (z : List Char) :
    stripCIAux ci [q0] (c :: z) =
      if charMatch ci q0 c then some (c, z) else none := rfl

theorem okStripTail_cons_cons {ci : Bool} (q0 q1 : Char) (qs : List Char)
    (c : Char) (z : List Char) :
    okStripTail ci (q0 :: q1 :: qs) (c :: z) =
      (charMatch ci q0 c && okStripTail ci (q1 :: qs) z) := by
  unfold okStripTail
  rw [stripCIAux_cons_cons]
  by_cases hm : charMatch ci q0 c
  · simp [hm]
  · simp [hm]

theorem okStripTail_single {ci : Bool} (q0 c : Char) (z : List Char) :
    okStripTail ci [q0] (c :: z) =
      (charMatch ci q0 c && bdry (some c) z.head?) := by
  unfold okStripTail
  rw [stripCIAux_one]
  by_cases hm : charMatch ci q0 c
  · simp [hm]
  · simp [hm]

theorem matchWB_isSome {ci : Bool} (p : List Char) (prev : Option Char)
    (s : List Char) :
    (matchWB ci p prev s).isSome = (bdry prev s.head? && okStripTail ci p s) := by
  cases s with
  | nil => simp [matchWB, okStripTail_nil]
  | cons c cs =>
    unfold matchWB okStripTail
    by_cases hb : bdry prev (some c)
    · simp only [List.head?_cons, hb, if_true, Bool.true_and]
      cases hst : stripCIAux ci p (c :: cs) with
      | none => simp
      | some mr =>
        by_cases hbe : bdry (some mr.1) mr.2.head?
        · simp [hbe]
        · simp [hbe]
    · simp [hb]

theorem stripCIAux_head {ci : Bool} : ∀ {p s : List Char} {m : Char}
    {rest : List Char}, stripCIAux ci p s = some (m, rest) →
    ∃ p0 ptl c0 stl, p = p0 :: ptl ∧ s = c0 :: stl ∧ charMatch ci p0 c0 = true := by
  intro p s m rest h
  cases p with
  | nil => cases s <;> simp [stripCIAux] at h
  | cons p0 ptl =>
    cases s with
    | nil => cases ptl <;> simp [stripCIAux] at h
    | cons c0 stl =>
      refine ⟨p0, ptl, c0, stl, rfl, rfl, ?_⟩
      by_cases hm : charMatch ci p0 c0
      · exact hm
      · cases ptl <;> simp [stripCIAux, hm] at h

theorem stripCIAux_decomp {ci : Bool} : ∀ (p s : List Char) (m : Char)
    (rest : List Char), stripCIAux ci p s = some (m, rest) →
    ∃ t, s = t ++ rest ∧ t ≠ [] ∧ t.getLast? = some m := by
  intro p
  induction p with
  | nil => intro s m rest h; cases s <;> simp [stripCIAux] at h
  | cons p0 ps ih =>
    intro s m rest h
    cases s with
    | nil => cases ps <;> simp [stripCIAux] at h
    | cons c stl =>
      cases ps with
      | nil =>
        by_cases hm : charMatch ci p0 c
        · simp [stripCIAux, hm] at h
          exact ⟨[c], by simp [h], by simp, by simp [h]⟩
        · simp [stripCIAux, hm] at h
      | cons p1 ps' =>
        by_cases hm : charMatch ci p0 c
        · simp only [stripCIAux, hm, if_true] at h
          obtain ⟨t, ht1, ht2, ht3⟩ := ih stl m rest h
          refine ⟨c :: t, by simp [ht1], by simp, ?_⟩
          cases t with
          | nil => exact absurd rfl ht2
          | cons t0 ts => rw [List.getLast?_cons_cons]; exact ht3
        · simp [stripCIAux, hm] at h

theorem hasMatchAux_suffix {ci : Bool} {p : List Char} :
    ∀ (t : List Char) (prev : Option Char) (rest : List Char),
    hasMatchAux ci p prev (t ++ rest) = false →
    hasMatchAux ci p (lastPrev prev t) rest = false := by
  intro t
  induction t with
  | nil => intro prev rest h; exact h
  | cons c cs ih =>
    intro prev rest h
    rw [List.cons_append] at h
    unfold hasMatchAux at h
    simp only [Bool.or_eq_false_iff] at h
    exact ih (some c) rest h.2

theorem noMatch_id {ci : Bool} {p r : List Char} :
    ∀ (s : List Char) (prev : Option Char),
    hasMatchAux ci p prev s = false →
    replaceWBAux ci p r prev 0 s = s := by
  intro s
  induction s with
  | nil => intro prev h; rfl
  | cons c cs ih =>
    intro prev h
    unfold hasMatchAux at h
    simp only [Bool.or_eq_false_iff] at h
    obtain ⟨h1, h2⟩ := h
    have hm : matchWB ci p prev (c :: cs) = none :=
      Option.not_isSome_iff_eq_none.mp (by simp [h1])
    rw [replaceWBAux_cons_nomatch hm, ih (some c) h2]

theorem blockKill_sound {ci : Bool} : ∀ (q u : List Char),
    blockKill ci q u = true → ∀ z, isWordB z.head? = false →
    okStripTail ci q (u ++ z) = false := by
  intro q
  induction q with
  | nil => intro u hk z hz; exact okStripTail_nil_pat _
  | cons q0 qs ih =>
    intro u hk z hz
    cases u with
    | nil =>
      simp only [List.nil_append]
      cases z with
      | nil => exact okStripTail_nil _
      | cons w ws =>
        have hw : jsWordChar w = false := hz
        have hq0 : jsWordChar q0 = true := by
          cases qs <;> simpa [blockKill] using hk
        have hcm : charMatch ci q0 w = false := by
          by_cases hc : charMatch ci q0 w
          · rw [charMatch_word hc, hw] at hq0
            exact absurd hq0 (by simp)
          · simpa using hc
        cases qs with
        | nil => rw [okStripTail_single, hcm]; rfl
        | cons q1 qs' => rw [okStripTail_cons_cons, hcm]; rfl
    | cons c cs =>
      rw [List.cons_append]
      cases qs with
      | nil =>
        rw [okStripTail_single]
        by_cases hc : charMatch ci q0 c
        · simp only [blockKill, hc, if_true] at hk
          have hb : bdry (some c) (cs ++ z).head? = false := by
            cases cs with
            | nil =>
              have hwc : jsWordChar c = false := by simpa using hk
              unfold bdry
              rw [show isWordB (some c) = jsWordChar c from rfl, hwc,
                List.nil_append, hz]
              rfl
            | cons c1 cs' =>
              have hb1 : bdry (some c) (some c1) = false := by simpa using hk
              rw [List.cons_append, List.head?_cons]
              exact hb1
          rw [hb]
          simp
        · have hc' : charMatch ci q0 c = false := by simpa using hc
          rw [hc']
          rfl
      | cons q1 qs' =>
        rw [okStripTail_cons_cons]
        by_cases hc : charMatch ci q0 c
        · simp only [blockKill, hc, if_true] at hk
          rw [ih cs hk z hz]
          simp
        · have hc' : charMatch ci q0 c = false := by simpa using hc
          rw [hc']
          rfl

theorem blockScanKill_sound {ci : Bool} {p : List Char} :
    ∀ (u : List Char) (prevO : Option Char) (z : List Char),
    blockScanKill ci p (isWordB prevO) u = true →
    isWordB z.head? = false →
    hasMatchAux ci p (lastPrev prevO u) z = false →
    hasMatchAux ci p prevO (u ++ z) = false := by
  intro u
  induction u with
  | nil => intro prevO z _ _ h3; exact h3
  | cons c cs ih =>
    intro prevO z hk hz h3
    simp only [blockScanKill, Bool.and_eq_true, Bool.or_eq_true] at hk
    obtain ⟨hk1, hk2⟩ := hk
    rw [List.cons_append]
    unfold hasMatchAux
    simp only [Bool.or_eq_false_iff]
    constructor
    · rw [matchWB_isSome]
      rcases hk1 with hk1 | hk1
      · have : bdry prevO (some c) = false := by
          simp only [beq_iff_eq] at hk1
          simp [bdry, isWordB, ← hk1]
        simp [List.head?_cons, this]
      · have := blockKill_sound p (c :: cs) hk1 z hz
        rw [List.cons_append] at this
        simp [this]
    · have hword : isWordB (some c) = jsWordChar c := rfl
      exact ih (some c) z (by rw [hword]; exact hk2) hz h3

theorem matchWB_some_strip {ci : Bool} {p : List Char} {prev : Option Char}
    {s : List Char} {m : Char} {rest : List Char}
    (h : matchWB ci p prev s = some (m, rest)) :
    stripCIAux ci p s = some (m, rest) ∧ bdry prev s.head? = true ∧
      bdry (some m) rest.head? = true := by
  cases s with
  | nil => simp [matchWB] at h
  | cons c cs =>
    simp only [matchWB] at h
    by_cases hb : bdry prev (some c)
    · rw [if_pos hb] at h
      cases hst : stripCIAux ci p (c :: cs) with
      | none => rw [hst] at h; simp at h
      | some mr =>
        obtain ⟨m1, rest1⟩ := mr
        rw [hst] at h
        by_cases hbe : bdry (some m1) rest1.head?
        · simp only [hbe, if_true] at h
          obtain ⟨h1, h2⟩ : m1 = m ∧ rest1 = rest := by simpa using h
          subst h1
          subst h2
          refine ⟨?_, hb, hbe⟩
          simp [hst]
        · simp [hbe] at h
    · rw [if_neg hb] at h; simp at h

theorem stripCIAux_last {ci : Bool} : ∀ (p s : List Char) (m : Char)
    (rest : List Char), stripCIAux ci p s = some (m, rest) →
    ∃ pl, p.getLast? = some pl ∧ charMatch ci pl m = true := by
  intro p
  induction p with
  | nil => intro s m rest h; cases s <;> simp [stripCIAux] at h
  | cons p0 ps ih =>
    intro s m rest h
    cases s with
    | nil => cases ps <;> simp [stripCIAux] at h
    | cons c stl =>
      cases ps with
      | nil =>
        by_cases hm : charMatch ci p0 c
        · simp [stripCIAux, hm] at h
          exact ⟨p0, by simp, by rw [h.1] at hm; exact hm⟩
        · simp [stripCIAux, hm] at h
      | cons p1 ps' =>
        by_cases hm : charMatch ci p0 c
        · simp only [stripCIAux, hm, if_true] at h
          obtain ⟨pl, h1, h2⟩ := ih stl m rest h
          exact ⟨pl, by rw [List.getLast?_cons_cons]; exact h1, h2⟩
        · simp [stripCIAux, hm] at h

theorem replaceWBAux_head_word {ci' : Bool} {p' r' : List Char}
    (hr : r' ≠ []) (hrw : isWordB r'.head? = true)
    (hpw : isWordB p'.head? = true) :
    ∀ (s : List Char) (prev : Option Char),
    isWordB (replaceWBAux ci' p' r' prev 0 s).head? = isWordB s.head? := by
  intro s prev
  cases s with
  | nil => rfl
  | cons c cs =>
    cases h : matchWB ci' p' prev (c :: cs) with
    | none =>
      rw [replaceWBAux_cons_nomatch h]
      rfl
    | some mr =>
      cases mr with
      | mk m rest =>
        rw [replaceWBAux_cons_match h]
        obtain ⟨hst, _, _⟩ := matchWB_some_strip h
        obtain ⟨p0, ptl, c0, stl, hp, hs, hcm⟩ := stripCIAux_head hst
        have hc0 : c0 = c := by
          injection hs with h1 _
          exact h1.symm ▸ rfl
        have hwc : jsWordChar c = true := by
          have := charMatch_word hcm
          rw [hc0] at this
          rw [← this]
          rw [hp] at hpw
          exact hpw
        cases r' with
        | nil => exact absurd rfl hr
        | cons r0 rs =>
          simp only [List.cons_append, List.head?_cons]
          rw [show isWordB (some r0) = true from hrw]
          simp [isWordB, hwc]

theorem bdry_congr {a b b' : Option Char} (h : isWordB b = isWordB b') :
    bdry a b = bdry a b' := by
  unfold bdry
  rw [h]

theorem getLast?_some_of_ne_nil {l : List Char} (h : l ≠ []) :
    ∃ m, l.getLast? = some m := by
  cases hl : l.getLast? with
  | none => exact absurd (List.getLast?_eq_none_iff.mp hl) h
  | some m => exact ⟨m, rfl⟩

/-- Rewrites the match step of the scanner into block-plus-continuation
form: a match of `p'` at the head of `c :: cs` turns
`replaceWBAux ci' p' r' prev 0 (c :: cs)` into
`r' ++ replaceWBAux ci' p' r' (some m) 0 rest`. -/
theorem replaceWBAux_match_block {ci' : Bool} {p' r' : List Char}
    {prev : Option Char} {c : Char} {cs : List Char} {m : Char}
    {rest : List Char} (h : matchWB ci' p' prev (c :: cs) = some (m, rest)) :
    replaceWBAux ci' p' r' prev 0 (c :: cs) =
      r' ++ replaceWBAux ci' p' r' (some m) 0 rest := by
  obtain ⟨hst, _, _⟩ := matchWB_some_strip h
  obtain ⟨t, ht1, ht2, ht3⟩ := stripCIAux_decomp _ _ _ _ hst
  cases t with
  | nil => exact absurd rfl ht2
  | cons t0 t' =>
    have hc : t0 = c := by
      have hh := congrArg List.head? ht1
      simpa using hh.symm
    subst hc
    have hcs : cs = t' ++ rest := by
      have hh := congrArg List.tail ht1
      simpa using hh
    have hlen : cs.length - rest.length = t'.length := by
      rw [hcs]
      simp
    rw [replaceWBAux_cons_match h, hlen, hcs, skipRun]
    have hlp : lastPrev (some t0) t' = some m := by
      have := lastPrev_getLast (t0 :: t') none m ht3
      exact this
    rw [hlp]

/-- Word-status of the last matched character of a `p'` match. -/
theorem matchWB_last_word {ci' : Bool} {p' : List Char}
    (hp'l : isWordB p'.getLast? = true) {prev : Option Char} {s : List Char}
    {m : Char} {rest : List Char}
    (h : matchWB ci' p' prev s = some (m, rest)) : jsWordChar m = true := by
  obtain ⟨hst, _, _⟩ := matchWB_some_strip h
  obtain ⟨pl, hpl1, hpl2⟩ := stripCIAux_last _ _ _ _ hst
  have : jsWordChar pl = true := by
    rw [hpl1] at hp'l
    exact hp'l
  rw [← charMatch_word hpl2]
  exact this

/-- Word-status of the first matched character of a `p'` match. -/
theorem matchWB_head_word {ci' : Bool} {p' : List Char}
    (hp'w : isWordB p'.head? = true) {prev : Option Char} {c : Char}
    {cs : List Char} {m : Char} {rest : List Char}
    (h : matchWB ci' p' prev (c :: cs) = some (m, rest)) :
    jsWordChar c = true := by
  obtain ⟨hst, _, _⟩ := matchWB_some_strip h
  obtain ⟨p0, ptl, c0, stl, hp, hs, hcm⟩ := stripCIAux_head hst
  have hc0 : c0 = c := by
    injection hs with h1 _
    exact h1.symm ▸ rfl
  rw [hp] at hp'w
  rw [← hc0, ← charMatch_word hcm]
  exact hp'w

/-- Head of the continuation after a `p'` match is non-word (or absent). -/
theorem matchWB_rest_nonword {ci' : Bool} {p' : List Char}
    (hp'l : isWordB p'.getLast? = true) {prev : Option Char} {s : List Char}
    {m : Char} {rest : List Char}
    (h : matchWB ci' p' prev s = some (m, rest)) :
    isWordB rest.head? = false := by
  obtain ⟨_, _, hbe⟩ := matchWB_some_strip h
  have hm : isWordB (some m) = true := matchWB_last_word hp'l h
  unfold bdry at hbe
  rw [hm] at hbe
  cases hx : isWordB rest.head? with
  | false => rfl
  | true => rw [hx] at hbe; simp at hbe

/-- Reflection: a boundary-valid strip of a suffix `q` of `p` at the head
of the scanner's output yields one at the head of the input. -/
theorem stripReflect {ci ci' : Bool} {p p' r' : List Char}
    (hp'w : isWordB p'.head? = true) (hp'l : isWordB p'.getLast? = true)
    (hr : r' ≠ []) (hrw : isWordB r'.head? = true)
    (hkill : ∀ q, q <:+ p → blockKill ci q r' = true) :
    ∀ (s : List Char) (prev : Option Char) (q : List Char), q <:+ p →
    okStripTail ci q (replaceWBAux ci' p' r' prev 0 s) = true →
    okStripTail ci q s = true := by
  intro s
  induction s with
  | nil => intro prev q hq h; exact h
  | cons c cs ih =>
    intro prev q hq h
    cases hm : matchWB ci' p' prev (c :: cs) with
    | some mr =>
      obtain ⟨m, rest⟩ := mr
      rw [replaceWBAux_match_block hm] at h
      have hz : isWordB (replaceWBAux ci' p' r' (some m) 0 rest).head? = false := by
        rw [replaceWBAux_head_word hr hrw hp'w]
        exact matchWB_rest_nonword hp'l hm
      have := blockKill_sound q r' (hkill q hq) _ hz
      rw [this] at h
      exact absurd h (by simp)
    | none =>
      rw [replaceWBAux_cons_nomatch hm] at h
      cases q with
      | nil => rw [okStripTail_nil_pat] at h; exact absurd h (by simp)
      | cons q0 qs =>
        cases qs with
        | nil =>
          rw [okStripTail_single] at h
          rw [okStripTail_single]
          simp only [Bool.and_eq_true] at h ⊢
          refine ⟨h.1, ?_⟩
          rw [← h.2]
          exact (bdry_congr (replaceWBAux_head_word hr hrw hp'w cs (some c))).symm
        | cons q1 qs' =>
          rw [okStripTail_cons_cons] at h
          rw [okStripTail_cons_cons]
          simp only [Bool.and_eq_true] at h ⊢
          refine ⟨h.1, ?_⟩
          have hq' : (q1 :: qs') <:+ p :=
            List.IsSuffix.trans ⟨[q0], rfl⟩ hq
          exact ih (some c) (q1 :: qs') hq' h.2

/-- Transfer of a head no-match through a copy step of the scanner. -/
theorem headNoMatch_transfer {ci ci' : Bool} {p p' r' : List Char}
    (hp'w : isWordB p'.head? = true) (hp'l : isWordB p'.getLast? = true)
    (hr : r' ≠ []) (hrw : isWordB r'.head? = true)
    (hkill : ∀ q, q <:+ p → blockKill ci q r' = true)
    {c : Char} {cs : List Char} {prev prevO : Option Char}
    (hw : isWordB prevO = isWordB prev)
    (hcopy : matchWB ci' p' prev (c :: cs) = none)
    (hnm : (matchWB ci p prev (c :: cs)).isSome = false) :
    (matchWB ci p prevO
      (c :: replaceWBAux ci' p' r' (some c) 0 cs)).isSome = false := by
  rw [matchWB_isSome] at hnm ⊢
  simp only [Bool.and_eq_false_iff] at hnm ⊢
  rcases hnm with hnm | hnm
  · left
    rw [List.head?_cons] at hnm ⊢
    unfold bdry at hnm ⊢
    rw [hw]
    exact hnm
  · right
    by_cases hout : okStripTail ci p
        (c :: replaceWBAux ci' p' r' (some c) 0 cs) = true
    · have hid : c :: replaceWBAux ci' p' r' (some c) 0 cs =
          replaceWBAux ci' p' r' prev 0 (c :: cs) :=
        (replaceWBAux_cons_nomatch hcopy).symm
      rw [hid] at hout
      have := stripReflect hp'w hp'l hr hrw hkill (c :: cs) prev p
        (List.suffix_refl p) hout
      rw [this] at hnm
      exact absurd hnm (by simp)
    · simpa using hout

/-- Self-cleanliness: after `replaceWBAux ci p r` runs, no `\bp\b` match
remains anywhere in its output. -/
theorem selfClean {ci : Bool} {p r : List Char}
    (hpw : isWordB p.head? = true) (hpl : isWordB p.getLast? = true)
    (hr : r ≠ []) (hrw : isWordB r.head? = true)
    (hrl : isWordB r.getLast? = true)
    (hkill : ∀ q, q <:+ p → blockKill ci q r = true)
    (hscan : blockScanKill ci p false r = true) :
    ∀ (n : Nat) (s : List Char), s.length ≤ n →
    ∀ (prev prevO : Option Char), isWordB prevO = isWordB prev →
    hasMatchAux ci p prevO (replaceWBAux ci p r prev 0 s) = false := by
  intro n
  induction n with
  | zero =>
    intro s hs prev prevO hw
    have : s = [] := List.length_eq_zero.mp (Nat.le_zero.mp hs)
    subst this
    rfl
  | succ n ih =>
    intro s hs prev prevO hw
    cases s with
    | nil => rfl
    | cons c cs =>
      cases hm : matchWB ci p prev (c :: cs) with
      | none =>
        rw [replaceWBAux_cons_nomatch hm]
        unfold hasMatchAux
        simp only [Bool.or_eq_false_iff]
        constructor
        · exact headNoMatch_transfer hpw hpl hr hrw hkill hw hm (by simp [hm])
        · exact ih cs (by simpa using Nat.le_of_succ_le_succ hs)
            (some c) (some c) rfl
      | some mr =>
        obtain ⟨m, rest⟩ := mr
        rw [replaceWBAux_match_block hm]
        obtain ⟨hst, hb, hbe⟩ := matchWB_some_strip hm
        have hcw : jsWordChar c = true := matchWB_head_word hpw hm
        have hprevnw : isWordB prev = false := by
          rw [List.head?_cons] at hb
          unfold bdry at hb
          rw [show isWordB (some c) = jsWordChar c from rfl, hcw] at hb
          cases hx : isWordB prev with
          | false => rfl
          | true => rw [hx] at hb; simp at hb
        have hprevOnw : isWordB prevO = false := by rw [hw]; exact hprevnw
        obtain ⟨rl, hrl?⟩ := getLast?_some_of_ne_nil hr
        have hmlen : rest.length ≤ n := by
          obtain ⟨t, ht1, ht2, _⟩ := stripCIAux_decomp _ _ _ _ hst
          have hlen := congrArg List.length ht1
          simp only [List.length_cons, List.length_append] at hlen
          have hs' : cs.length + 1 ≤ n + 1 := by simpa using hs
          cases t with
          | nil => exact absurd rfl ht2
          | cons t0 t' =>
            simp only [List.length_cons] at hlen
            omega
        apply blockScanKill_sound
        · rw [hprevOnw]
          exact hscan
        · rw [replaceWBAux_head_word hr hrw hpw]
          exact matchWB_rest_nonword hpl hm
        · have hlpO : lastPrev prevO r = some rl := lastPrev_getLast r prevO rl hrl?
          rw [hlpO]
          apply ih rest hmlen (some m) (some rl)
          have h1 : isWordB (some rl) = true := by
            rw [show isWordB (some rl) = jsWordChar rl from rfl]
            rw [hrl?] at hrl
            exact hrl
          have h2 : isWordB (some m) = true := matchWB_last_word hpl hm
          rw [h1, h2]

/-- Cross-preservation: applying a rule `(p', r')` to a string with no
`\bp\b` match yields a string with no `\bp\b` match. -/
theorem crossClean {ci ci' : Bool} {p p' r' : List Char}
    (hp'w : isWordB p'.head? = true) (hp'l : isWordB p'.getLast? = true)
    (hr : r' ≠ []) (hrw : isWordB r'.head? = true)
    (hrl : isWordB r'.getLast? = true)
    (hkill : ∀ q, q <:+ p → blockKill ci q r' = true)
    (hscan : blockScanKill ci p false r' = true) :
    ∀ (n : Nat) (s : List Char), s.length ≤ n →
    ∀ (prev prevO : Option Char), isWordB prevO = isWordB prev →
    hasMatchAux ci p prev s = false →
    hasMatchAux ci p prevO (replaceWBAux ci' p' r' prev 0 s) = false := by
  intro n
  induction n with
  | zero =>
    intro s hs prev prevO hw hclean
    have : s = [] := List.length_eq_zero.mp (Nat.le_zero.mp hs)
    subst this
    rfl
  | succ n ih =>
    intro s hs prev prevO hw hclean
    cases s with
    | nil => rfl
    | cons c cs =>
      unfold hasMatchAux at hclean
      simp only [Bool.or_eq_false_iff] at hclean
      obtain ⟨hcl1, hcl2⟩ := hclean
      cases hm : matchWB ci' p' prev (c :: cs) with
      | none =>
        rw [replaceWBAux_cons_nomatch hm]
        unfold hasMatchAux
        simp only [Bool.or_eq_false_iff]
        constructor
        · exact headNoMatch_transfer hp'w hp'l hr hrw hkill hw hm hcl1
        · exact ih cs (by simpa using Nat.le_of_succ_le_succ hs)
            (some c) (some c) rfl hcl2
      | some mr =>
        obtain ⟨m, rest⟩ := mr
        rw [replaceWBAux_match_block hm]
        obtain ⟨hst, hb, hbe⟩ := matchWB_some_strip hm
        have hcw : jsWordChar c = true := matchWB_head_word hp'w hm
        have hprevnw : isWordB prev = false := by
          rw [List.head?_cons] at hb
          unfold bdry at hb
          rw [show isWordB (some c) = jsWordChar c from rfl, hcw] at hb
          cases hx : isWordB prev with
          | false => rfl
          | true => rw [hx] at hb; simp at hb
        have hprevOnw : isWordB prevO = false := by rw [hw]; exact hprevnw
        obtain ⟨rl, hrl?⟩ := getLast?_some_of_ne_nil hr
        obtain ⟨t, ht1, ht2, ht3⟩ := stripCIAux_decomp _ _ _ _ hst
        have hmlen : rest.length ≤ n := by
          have hlen := congrArg List.length ht1
          simp only [List.length_cons, List.length_append] at hlen
          have hs' : cs.length + 1 ≤ n + 1 := by simpa using hs
          cases t with
          | nil => exact absurd rfl ht2
          | cons t0 t' =>
            simp only [List.length_cons] at hlen
            omega
        have hrestclean : hasMatchAux ci p (some m) rest = false := by
          have hsfx := @hasMatchAux_suffix ci p t prev rest
          rw [← ht1] at hsfx
          have hlpt : lastPrev prev t = some m := lastPrev_getLast t prev m ht3
          rw [hlpt] at hsfx
          exact hsfx (by unfold hasMatchAux; simp [hcl1, hcl2])
        apply blockScanKill_sound
        · rw [hprevOnw]
          exact hscan
        · rw [replaceWBAux_head_word hr hrw hp'w]
          exact matchWB_rest_nonword hp'l hm
        · have hlpO : lastPrev prevO r' = some rl := lastPrev_getLast r' prevO rl hrl?
          rw [hlpO]
          apply ih rest hmlen (some m) (some rl)
          · have h1 : isWordB (some rl) = true := by
              rw [show isWordB (some rl) = jsWordChar rl from rfl]
              rw [hrl?] at hrl
              exact hrl
            have h2 : isWordB (some m) = true := matchWB_last_word hp'l hm
            rw [h1, h2]
          · exact hrestclean

theorem crossOK_spec {ci : Bool} {p : List Char} {rule : String × String}
    (h : crossOK ci p rule = true) :
    rule.1.toList ≠ [] ∧ rule.2.toList ≠ [] ∧
    isWordB rule.1.toList.head? = true ∧ isWordB rule.1.toList.getLast? = true ∧
    isWordB rule.2.toList.head? = true ∧ isWordB rule.2.toList.getLast? = true ∧
    (∀ q, q <:+ p → blockKill ci q rule.2.toList = true) ∧
    blockScanKill ci p false rule.2.toList = true := by
  unfold crossOK at h
  simp only [Bool.and_eq_true, Bool.not_eq_true', List.all_eq_true] at h
  obtain ⟨⟨⟨⟨⟨⟨⟨h1, h2⟩, h3⟩, h4⟩, h5⟩, h6⟩, h7⟩, h8⟩ := h
  refine ⟨?_, ?_, h3, h4, h5, h6, ?_, h8⟩
  · intro he
    rw [he] at h1
    simp at h1
  · intro he
    rw [he] at h2
    simp at h2
  · intro q hq
    exact h7 q ((List.mem_tails q p).mpr hq)

theorem replaceWB_cross_clean {ci : Bool} {p : List Char}
    {rule : String × String} (hOK : crossOK ci p rule = true)
    {s : List Char} (hclean : hasMatchAux ci p none s = false) :
    hasMatchAux ci p none (replaceWB true rule.1.toList rule.2.toList s) = false := by
  obtain ⟨_, h2, h3, h4, h5, h6, h7, h8⟩ := crossOK_spec hOK
  exact crossClean h3 h4 h2 h5 h6 h7 h8 s.length s le_rfl none none rfl hclean

theorem replaceWB_self_clean {rule : String × String}
    (hOK : crossOK true rule.1.toList rule = true) (s : List Char) :
    hasMatchAux true rule.1.toList none
      (replaceWB true rule.1.toList rule.2.toList s) = false := by
  obtain ⟨_, h2, h3, h4, h5, h6, h7, h8⟩ := crossOK_spec hOK
  exact selfClean h3 h4 h2 h5 h6 h7 h8 s.length s le_rfl none none rfl

theorem applyRules_preserves_clean {ci : Bool} {p : List Char} :
    ∀ (rules : List (String × String)),
    (∀ ru ∈ rules, crossOK ci p ru = true) →
    ∀ (s : List Char), hasMatchAux ci p none s = false →
    hasMatchAux ci p none (applyRules rules s) = false := by
  intro rules
  induction rules with
  | nil => intro _ s hclean; exact hclean
  | cons ru rest ih =>
    intro h s hclean
    rw [applyRules_cons]
    exact ih (fun q hq => h q (by simp [hq]))
      _ (replaceWB_cross_clean (h ru (by simp)) hclean)

theorem applyRules_all_clean :
    ∀ (rules : List (String × String)), rulesOK true rules = true →
    ∀ (s : List Char) (ru : String × String), ru ∈ rules →
    hasMatchAux true ru.1.toList none (applyRules rules s) = false := by
  intro rules
  induction rules with
  | nil => intro _ s ru hru; simp at hru
  | cons ru0 rest ih =>
    intro hOK s ru hru
    unfold rulesOK at hOK
    simp only [Bool.and_eq_true, List.all_eq_true] at hOK
    obtain ⟨⟨hself, hcross⟩, hrest⟩ := hOK
    rw [applyRules_cons]
    rcases List.mem_cons.mp hru with rfl | hru
    · exact applyRules_preserves_clean rest (fun q hq => hcross q hq) _
        (replaceWB_self_clean hself s)
    · exact ih hrest _ ru hru

theorem applyRules_id_of_clean :
    ∀ (rules : List (String × String)) (t : List Char),
    (∀ ru ∈ rules, hasMatchAux true ru.1.toList none t = false) →
    applyRules rules t = t := by
  intro rules
  induction rules with
  | nil => intro t _; rfl
  | cons ru rest ih =>
    intro t h
    rw [applyRules_cons,
      show replaceWB true ru.1.toList ru.2.toList t = t from
        noMatch_id _ none (h ru (by simp))]
    exact ih t (fun q hq => h q (by simp [hq]))

theorem applyRules_idem (rules : List (String × String))
    (hOK : rulesOK true rules = true) (s : List Char) :
    applyRules rules (applyRules rules s) = applyRules rules s :=
  applyRules_id_of_clean rules (applyRules rules s)
    (fun ru hru => applyRules_all_clean rules hOK s ru hru)

theorem getFallbackRewriting_idem (x : String) :
    getFallbackRewriting (getFallbackRewriting x) = getFallbackRewriting x := by
  unfold getFallbackRewriting
  rw [toList_mk, applyRules_idem improvements (by decide)]

/-! ## Lemmas for the capitalize-after-punctuation pass -/

theorem isSentSep_nonword {c : Char} (h : isSentSep c = true) :
    jsWordChar c = false := by
  unfold isSentSep at h
  simp only [Bool.or_eq_true, beq_iff_eq] at h
  rcases h with (rfl | rfl) | rfl <;> decide

theorem jsSpace_nonword {c : Char} (h : jsSpace c = true) :
    jsWordChar c = false := by
  unfold jsSpace at h
  simp only [Bool.or_eq_true, beq_iff_eq] at h
  rcases h with ((((rfl | rfl) | rfl) | rfl) | rfl) | rfl <;> decide

theorem isLowerAlpha_word {c : Char} (h : isLowerAlpha c = true) :
    jsWordChar c = true := by
  unfold isLowerAlpha at h
  simp only [Bool.and_eq_true, decide_eq_true_eq] at h
  unfold jsWordChar
  simp only [Bool.or_eq_true, Bool.and_eq_true, decide_eq_true_eq]
  exact Or.inl (Or.inl (Or.inl ⟨h.1, h.2⟩))

theorem jsUpper_word {c : Char} (h : isLowerAlpha c = true) :
    jsWordChar (jsUpper c) = true := by
  unfold isLowerAlpha at h
  simp only [Bool.and_eq_true, decide_eq_true_eq] at h
  obtain ⟨h1, h2⟩ := h
  have ha : (97 : Nat) ≤ c.toNat := h1
  have hz : c.toNat ≤ 122 := h2
  unfold jsUpper
  rw [if_pos (by simp only [Bool.and_eq_true, decide_eq_true_eq]; exact ⟨h1, h2⟩)]
  have ht : (Char.ofNat (c.toNat - 32)).toNat = c.toNat - 32 :=
    charOfNat_toNat (by omega)
  unfold jsWordChar
  simp only [Bool.or_eq_true, Bool.and_eq_true, decide_eq_true_eq]
  refine Or.inl (Or.inl (Or.inr ⟨?_, ?_⟩))
  · show (65 : Nat) ≤ (Char.ofNat (c.toNat - 32)).toNat
    rw [ht]
    omega
  · show (Char.ofNat (c.toNat - 32)).toNat ≤ 90
    rw [ht]
    omega

theorem jsUpper_toNat {c : Char} (h : isLowerAlpha c = true) :
    (jsUpper c).toNat = c.toNat - 32 := by
  unfold isLowerAlpha at h
  simp only [Bool.and_eq_true, decide_eq_true_eq] at h
  obtain ⟨h1, h2⟩ := h
  have ha : (97 : Nat) ≤ c.toNat := h1
  have hz : c.toNat ≤ 122 := h2
  unfold jsUpper
  rw [if_pos (by simp only [Bool.and_eq_true, decide_eq_true_eq]; exact ⟨h1, h2⟩)]
  exact charOfNat_toNat (by omega)

theorem jsLower_jsUpper {c : Char} (h : isLowerAlpha c = true) :
    jsLower (jsUpper c) = c := by
  have hlow := h
  unfold isLowerAlpha at hlow
  simp only [Bool.and_eq_true, decide_eq_true_eq] at hlow
  obtain ⟨h1, h2⟩ := hlow
  have ha : (97 : Nat) ≤ c.toNat := h1
  have hz : c.toNat ≤ 122 := h2
  have ht := jsUpper_toNat h
  unfold jsLower
  rw [if_pos]
  · have : (jsUpper c).toNat + 32 = c.toNat := by omega
    rw [this]
    exact Char.ofNat_toNat c
  · simp only [Bool.and_eq_true, decide_eq_true_eq]
    constructor
    · show (65 : Nat) ≤ (jsUpper c).toNat
      rw [ht]
      omega
    · show (jsUpper c).toNat ≤ 90
      rw [ht]
      omega

theorem jsLower_lower {c : Char} (h : isLowerAlpha c = true) :
    jsLower c = c := by
  unfold isLowerAlpha at h
  simp only [Bool.and_eq_true, decide_eq_true_eq] at h
  obtain ⟨h1, h2⟩ := h
  have ha : (97 : Nat) ≤ c.toNat := h1
  unfold jsLower
  rw [if_neg]
  intro hAZ
  simp only [Bool.and_eq_true, decide_eq_true_eq] at hAZ
  have hb : c.toNat ≤ 90 := hAZ.2
  omega

theorem capRun_some_head (P : Char) : ∀ (l ws : List Char),
    (capRun (some (P, ws)) l).head? = some P := by
  intro l
  induction l with
  | nil => intro ws; rfl
  | cons c cs ih =>
    intro ws
    unfold capRun
    by_cases h1 : jsSpace c
    · simp only [h1, if_true]
      exact ih (c :: ws)
    · by_cases h2 : isLowerAlpha c <;> by_cases h3 : isSentSep c <;>
        simp [h1, h2, h3]

theorem capHeadWord : ∀ (st : Option (Char × List Char)) (l : List Char),
    isWordB (capRun st l).head? = isWordB (capInp st l).head? := by
  intro st l
  cases st with
  | none =>
    cases l with
    | nil => rfl
    | cons c cs =>
      unfold capRun capInp
      by_cases h : isSentSep c
      · simp only [h, if_true]
        rw [capRun_some_head]
        rfl
      · simp [h]
  | some pw =>
    obtain ⟨P, ws⟩ := pw
    rw [show capInp (some (P, ws)) l = P :: (ws.reverse ++ l) from rfl]
    cases l with
    | nil => rfl
    | cons c cs =>
      rw [capRun_some_head]
      rfl

theorem hasMatch_congr_prev {ci : Bool} {p : List Char}
    {prev prevO : Option Char} (hw : isWordB prevO = isWordB prev)
    (l : List Char) :
    hasMatchAux ci p prevO l = hasMatchAux ci p prev l := by
  cases l with
  | nil => rfl
  | cons c cs =>
    unfold hasMatchAux
    rw [matchWB_isSome, matchWB_isSome]
    unfold bdry
    rw [hw]

theorem hasMatch_nonword_run {ci : Bool} {p : List Char} (hp : p ≠ [])
    (hpw : isWordB p.head? = true) :
    ∀ (u : List Char), (∀ ch ∈ u, jsWordChar ch = false) →
    ∀ (X : List Char) (prev : Option Char),
    hasMatchAux ci p (lastPrev prev u) X = false →
    hasMatchAux ci p prev (u ++ X) = false := by
  intro u
  induction u with
  | nil => intro _ X prev h; exact h
  | cons c cs ih =>
    intro hnw X prev h
    rw [List.cons_append]
    unfold hasMatchAux
    simp only [Bool.or_eq_false_iff]
    constructor
    · rw [matchWB_isSome]
      cases p with
      | nil => exact absurd rfl hp
      | cons p0 ps =>
        have hp0 : jsWordChar p0 = true := hpw
        have hc : jsWordChar c = false := hnw c (by simp)
        have hcm : charMatch ci p0 c = false := by
          by_cases hx : charMatch ci p0 c
          · rw [charMatch_word hx, hc] at hp0
            exact absurd hp0 (by simp)
          · simpa using hx
        cases ps with
        | nil => rw [okStripTail_single, hcm]; simp
        | cons p1 ps' => rw [okStripTail_cons_cons, hcm]; simp
    · exact ih (fun q hq => hnw q (by simp [hq])) X (some c) h

theorem okStripTail_empty {ci : Bool} (q : List Char) :
    okStripTail ci q [] = false := by
  cases q with
  | nil => exact okStripTail_nil_pat []
  | cons q0 qs => exact okStripTail_nil (q0 :: qs)

theorem bdry_congr_left {a a' b : Option Char} (h : isWordB a = isWordB a') :
    bdry a b = bdry a' b := by
  unfold bdry
  rw [h]

theorem matchB_nonword_head {ci : Bool} {p : List Char} (hp : p ≠ [])
    (hpw : isWordB p.head? = true) {d : Char} (hd : jsWordChar d = false)
    (prev : Option Char) (X : List Char) :
    (matchWB ci p prev (d :: X)).isSome = false := by
  rw [matchWB_isSome]
  cases p with
  | nil => exact absurd rfl hp
  | cons p0 ps =>
    have hp0 : jsWordChar p0 = true := hpw
    have hcm : charMatch ci p0 d = false := by
      by_cases hx : charMatch ci p0 d
      · rw [charMatch_word hx, hd] at hp0
        exact absurd hp0 (by simp)
      · simpa using hx
    cases ps with
    | nil => rw [okStripTail_single, hcm]; simp
    | cons p1 ps' => rw [okStripTail_cons_cons, hcm]; simp

theorem okStripTail_nonword_head {ci : Bool} {p : List Char} (hp : p ≠ [])
    (hpw : isWordB p.head? = true) {d : Char} (hd : jsWordChar d = false)
    (X : List Char) : okStripTail ci p (d :: X) = false := by
  cases p with
  | nil => exact absurd rfl hp
  | cons p0 ps =>
    have hp0 : jsWordChar p0 = true := hpw
    have hcm : charMatch ci p0 d = false := by
      by_cases hx : charMatch ci p0 d
      · rw [charMatch_word hx, hd] at hp0
        exact absurd hp0 (by simp)
      · simpa using hx
    cases ps with
    | nil => rw [okStripTail_single, hcm]; simp
    | cons p1 ps' => rw [okStripTail_cons_cons, hcm]; simp

theorem lastPrev_nonword : ∀ (u : List Char) (prev : Option Char),
    (∀ ch ∈ u, jsWordChar ch = false) → u ≠ [] →
    isWordB (lastPrev prev u) = false := by
  intro u
  induction u with
  | nil => intro prev _ h; exact absurd rfl h
  | cons c cs ih =>
    intro prev hnw _
    cases cs with
    | nil => exact hnw c (by simp)
    | cons c1 cs' =>
      exact ih (some c) (fun q hq => hnw q (by simp [hq])) (by simp)

theorem lastPrev_base_irrel : ∀ (u : List Char) (prev prev' : Option Char),
    u ≠ [] → lastPrev prev u = lastPrev prev' u := by
  intro u
  induction u with
  | nil => intro _ _ h; exact absurd rfl h
  | cons c cs ih =>
    intro prev prev' _
    cases cs with
    | nil => rfl
    | cons c1 cs' => exact ih (some c) (some c) (by simp)

theorem capRun_none_cons (c : Char) (cs : List Char) :
    capRun none (c :: cs) =
      if isSentSep c then capRun (some (c, [])) cs
      else c :: capRun none cs := rfl

theorem capRun_some_cons (P c : Char) (ws cs : List Char) :
    capRun (some (P, ws)) (c :: cs) =
      if jsSpace c then capRun (some (P, c :: ws)) cs
      else if isLowerAlpha c then P :: ' ' :: jsUpper c :: capRun none cs
      else if isSentSep c then P :: (ws.reverse ++ capRun (some (c, [])) cs)
      else P :: (ws.reverse ++ (c :: capRun none cs)) := rfl

theorem capStInv_mk {c : Char} (hc : isSentSep c = true) (ws : List Char) :
    ∀ (P' : Char) (ws' : List Char), (some (c, ws) : Option (Char × List Char)) = some (P', ws') →
    isSentSep P' = true := by
  intro P' ws' hPw
  have h1 : c = P' := by
    injection hPw with h2
    exact congrArg Prod.fst h2
  rw [← h1]
  exact hc

theorem capStInv_none :
    ∀ (P' : Char) (ws' : List Char), (none : Option (Char × List Char)) = some (P', ws') →
    isSentSep P' = true := by
  intro P' ws' hPw
  simp at hPw

theorem capStripReflect {ci : Bool} {p : List Char}
    (hword : ∀ pk ∈ p, jsWordChar pk = true) :
    ∀ (n : Nat) (l : List Char), l.length ≤ n →
    ∀ (st : Option (Char × List Char)),
    (∀ P ws, st = some (P, ws) → isSentSep P = true) →
    ∀ (q : List Char), q <:+ p →
    okStripTail ci q (capRun st l) = true →
    okStripTail ci q (capInp st l) = true := by
  intro n
  induction n with
  | zero =>
    intro l hl st hst q hq h
    have : l = [] := List.length_eq_zero.mp (Nat.le_zero.mp hl)
    subst this
    cases st with
    | none => exact h
    | some pw =>
      obtain ⟨P, ws⟩ := pw
      rw [show capRun (some (P, ws)) [] = P :: ws.reverse from rfl] at h
      rw [show capInp (some (P, ws)) [] = P :: (ws.reverse ++ []) from rfl,
        List.append_nil]
      exact h
  | succ n ih =>
    intro l hl st hst q hq h
    cases st with
    | none =>
      cases l with
      | nil => exact h
      | cons c cs =>
        by_cases hc : isSentSep c
        · rw [capRun_none_cons, if_pos hc] at h
          have := ih cs (by simpa using Nat.le_of_succ_le_succ hl)
            (some (c, [])) (capStInv_mk hc []) q hq h
          rw [show capInp (some (c, [])) cs = c :: ([] ++ cs) from rfl] at this
          simpa using this
        · rw [capRun_none_cons, if_neg hc] at h
          show okStripTail ci q (c :: cs) = true
          cases q with
          | nil => rw [okStripTail_nil_pat] at h; exact absurd h (by simp)
          | cons q0 qs =>
            cases qs with
            | nil =>
              rw [okStripTail_single] at h ⊢
              simp only [Bool.and_eq_true] at h ⊢
              refine ⟨h.1, ?_⟩
              rw [← h.2]
              exact (bdry_congr (capHeadWord none cs)).symm
            | cons q1 qs' =>
              rw [okStripTail_cons_cons] at h ⊢
              simp only [Bool.and_eq_true] at h ⊢
              refine ⟨h.1, ?_⟩
              have hq' : (q1 :: qs') <:+ p := List.IsSuffix.trans ⟨[q0], rfl⟩ hq
              exact ih cs (by simpa using Nat.le_of_succ_le_succ hl) none
                capStInv_none (q1 :: qs') hq' h.2
    | some pw =>
      obtain ⟨P, ws⟩ := pw
      have hP : isSentSep P = true := hst P ws rfl
      have hPnw : jsWordChar P = false := isSentSep_nonword hP
      have hqdead : ∀ X, okStripTail ci q (P :: X) = true → False := by
        intro X hX
        cases q with
        | nil => rw [okStripTail_nil_pat] at hX; exact absurd hX (by simp)
        | cons q0 qs =>
          have hq0 : jsWordChar q0 = true := hword q0 (hq.subset (by simp))
          rw [okStripTail_nonword_head (by simp)
            (show isWordB (q0 :: qs).head? = true from hq0) hPnw] at hX
          exact absurd hX (by simp)
      cases l with
      | nil =>
        rw [show capRun (some (P, ws)) [] = P :: ws.reverse from rfl] at h
        rw [show capInp (some (P, ws)) [] = P :: (ws.reverse ++ []) from rfl,
          List.append_nil]
        exact h
      | cons c cs =>
        by_cases h1 : jsSpace c
        · rw [capRun_some_cons, if_pos h1] at h
          have := ih cs (by simpa using Nat.le_of_succ_le_succ hl)
            (some (P, c :: ws)) (capStInv_mk hP (c :: ws)) q hq h
          rw [show capInp (some (P, c :: ws)) cs =
            P :: ((c :: ws).reverse ++ cs) from rfl, List.reverse_cons,
            List.append_assoc] at this
          rw [show capInp (some (P, ws)) (c :: cs) =
            P :: (ws.reverse ++ (c :: cs)) from rfl]
          simpa using this
        · rw [capRun_some_cons, if_neg h1] at h
          by_cases h2 : isLowerAlpha c
          · rw [if_pos h2] at h
            exact absurd h (fun hx => hqdead _ hx)
          · rw [if_neg h2] at h
            by_cases h3 : isSentSep c
            · rw [if_pos h3] at h
              exact absurd h (fun hx => hqdead _ hx)
            · rw [if_neg h3] at h
              exact absurd h (fun hx => hqdead _ hx)

theorem hasMatchAux_cons {ci : Bool} (p : List Char) (prev : Option Char)
    (c : Char) (cs : List Char) :
    hasMatchAux ci p prev (c :: cs) =
      ((matchWB ci p prev (c :: cs)).isSome || hasMatchAux ci p (some c) cs) := rfl

theorem capPreserve {ci : Bool} {p : List Char} (hp : p ≠ [])
    (hword : ∀ pk ∈ p, jsWordChar pk = true)
    (hedit : ∀ pk c, pk ∈ p → isLowerAlpha c = true →
      charMatch ci pk (jsUpper c) = true → charMatch ci pk c = true) :
    ∀ (n : Nat) (l : List Char), l.length ≤ n →
    ∀ (st : Option (Char × List Char)),
    (∀ P ws, st = some (P, ws) →
      isSentSep P = true ∧ ∀ w ∈ ws, jsSpace w = true) →
    ∀ (prev prevO : Option Char), isWordB prevO = isWordB prev →
    hasMatchAux ci p prev (capInp st l) = false →
    hasMatchAux ci p prevO (capRun st l) = false := by
  have hpw : isWordB p.head? = true := by
    cases p with
    | nil => exact absurd rfl hp
    | cons p0 ps => exact hword p0 (by simp)
  intro n
  induction n with
  | zero =>
    intro l hl st hst prev prevO hw hclean
    have : l = [] := List.length_eq_zero.mp (Nat.le_zero.mp hl)
    subst this
    cases st with
    | none => rfl
    | some pw =>
      obtain ⟨P, ws⟩ := pw
      rw [show capRun (some (P, ws)) [] = P :: ws.reverse from rfl]
      rw [show capInp (some (P, ws)) [] = P :: (ws.reverse ++ []) from rfl,
        List.append_nil] at hclean
      rw [hasMatch_congr_prev hw]
      exact hclean
  | succ n ih =>
    intro l hl st hst prev prevO hw hclean
    cases st with
    | none =>
      cases l with
      | nil => rfl
      | cons c cs =>
        by_cases hc : isSentSep c
        · rw [capRun_none_cons, if_pos hc]
          apply ih cs (by simpa using Nat.le_of_succ_le_succ hl) (some (c, []))
            (by
              intro P' ws' hPw
              have h1 : c = P' := by
                injection hPw with h2
                exact congrArg Prod.fst h2
              have h2 : ([] : List Char) = ws' := by
                injection hPw with h3
                exact congrArg Prod.snd h3
              rw [← h1, ← h2]
              exact ⟨hc, by simp⟩)
            prev prevO hw
          rw [show capInp (some (c, [])) cs = c :: ([] ++ cs) from rfl,
            List.nil_append]
          exact hclean
        · rw [capRun_none_cons, if_neg hc]
          rw [show capInp none (c :: cs) = c :: cs from rfl] at hclean
          rw [hasMatchAux_cons] at hclean ⊢
          simp only [Bool.or_eq_false_iff] at hclean ⊢
          obtain ⟨hcl1, hcl2⟩ := hclean
          constructor
          · rw [matchWB_isSome] at hcl1 ⊢
            simp only [Bool.and_eq_false_iff] at hcl1 ⊢
            rcases hcl1 with hcl1 | hcl1
            · left
              rw [List.head?_cons] at hcl1 ⊢
              rw [bdry_congr_left hw]
              exact hcl1
            · right
              by_cases hx : okStripTail ci p (c :: capRun none cs) = true
              · have := capStripReflect hword (n + 1) (c :: cs) hl none
                  capStInv_none p (List.suffix_refl p)
                  (by rw [capRun_none_cons, if_neg hc]; exact hx)
                rw [show capInp none (c :: cs) = c :: cs from rfl] at this
                rw [this] at hcl1
                exact absurd hcl1 (by simp)
              · simpa using hx
          · exact ih cs (by simpa using Nat.le_of_succ_le_succ hl) none
              (by intro P' ws' hPw; simp at hPw) (some c) (some c) rfl
              (by rw [show capInp none cs = cs from rfl]; exact hcl2)
    | some pw =>
      obtain ⟨P, ws⟩ := pw
      obtain ⟨hP, hws⟩ := hst P ws rfl
      have hPnw : jsWordChar P = false := isSentSep_nonword hP
      have hunw : ∀ ch ∈ (P :: ws.reverse), jsWordChar ch = false := by
        intro ch hch
        rcases List.mem_cons.mp hch with rfl | hch
        · exact hPnw
        · exact jsSpace_nonword (hws ch (List.mem_reverse.mp hch))
      rw [show capInp (some (P, ws)) l = P :: (ws.reverse ++ l) from rfl,
        ← List.cons_append] at hclean
      have hsfx1 := @hasMatchAux_suffix ci p (P :: ws.reverse)
        prev l hclean
      have hlpnw : isWordB (lastPrev prev (P :: ws.reverse)) = false :=
        lastPrev_nonword _ prev hunw (by simp)
      cases l with
      | nil =>
        rw [show capRun (some (P, ws)) [] = P :: ws.reverse from rfl]
        rw [show (P :: ws.reverse) ++ [] = P :: ws.reverse by simp] at hclean
        rw [hasMatch_congr_prev hw]
        exact hclean
      | cons c cs =>
        rw [hasMatchAux_cons] at hsfx1
        simp only [Bool.or_eq_false_iff] at hsfx1
        obtain ⟨hsc1, hsc2⟩ := hsfx1
        by_cases h1 : jsSpace c
        · rw [capRun_some_cons, if_pos h1]
          apply ih cs (by simpa using Nat.le_of_succ_le_succ hl)
            (some (P, c :: ws))
            (by
              intro P' ws' hPw
              have he1 : P = P' := by
                injection hPw with h2
                exact congrArg Prod.fst h2
              have he2 : c :: ws = ws' := by
                injection hPw with h3
                exact congrArg Prod.snd h3
              rw [← he1, ← he2]
              refine ⟨hP, ?_⟩
              intro w hwmem
              rcases List.mem_cons.mp hwmem with rfl | hwmem
              · exact h1
              · exact hws w hwmem)
            prev prevO hw
          rw [show capInp (some (P, c :: ws)) cs =
            P :: ((c :: ws).reverse ++ cs) from rfl, List.reverse_cons,
            List.append_assoc]
          simpa using hclean
        · by_cases h2 : isLowerAlpha c
          · rw [capRun_some_cons, if_neg h1, if_pos h2]
            have hcw : jsWordChar c = true := isLowerAlpha_word h2
            have hUw : jsWordChar (jsUpper c) = true := jsUpper_word h2
            have hbdin : bdry (lastPrev prev (P :: ws.reverse)) (some c) = true := by
              unfold bdry
              rw [hlpnw, show isWordB (some c) = jsWordChar c from rfl, hcw]
              rfl
            have hstripc : okStripTail ci p (c :: cs) = false := by
              rw [matchWB_isSome] at hsc1
              simp only [Bool.and_eq_false_iff] at hsc1
              rcases hsc1 with hsc1 | hsc1
              · rw [List.head?_cons, hbdin] at hsc1
                exact absurd hsc1 (by simp)
              · exact hsc1
            rw [hasMatchAux_cons, hasMatchAux_cons, hasMatchAux_cons]
            simp only [Bool.or_eq_false_iff]
            refine ⟨?_, ?_, ?_, ?_⟩
            · exact matchB_nonword_head hp hpw hPnw prevO _
            · exact matchB_nonword_head hp hpw (by decide) (some P) _
            · rw [matchWB_isSome]
              have hstripU : okStripTail ci p (jsUpper c :: capRun none cs) = false := by
                by_cases hx : okStripTail ci p (jsUpper c :: capRun none cs) = true
                · exfalso
                  cases p with
                  | nil => exact hp rfl
                  | cons p0 ps =>
                    cases ps with
                    | nil =>
                      rw [okStripTail_single] at hx
                      simp only [Bool.and_eq_true] at hx
                      have hm1 : charMatch ci p0 c =
                          true := hedit p0 c (by simp) h2 hx.1
                      have hb2 : bdry (some c) cs.head? = true := by
                        have hcap := capHeadWord none cs
                        rw [show capInp none cs = cs from rfl] at hcap
                        rw [bdry_congr hcap] at hx
                        have : bdry (some (jsUpper c)) cs.head? =
                            bdry (some c) cs.head? :=
                          bdry_congr_left (by
                            rw [show isWordB (some (jsUpper c)) =
                              jsWordChar (jsUpper c) from rfl, hUw,
                              show isWordB (some c) = jsWordChar c from rfl, hcw])
                        rw [this] at hx
                        exact hx.2
                      rw [okStripTail_single, hm1, hb2] at hstripc
                      exact absurd hstripc (by simp)
                    | cons p1 ps' =>
                      rw [okStripTail_cons_cons] at hx
                      simp only [Bool.and_eq_true] at hx
                      have hm1 : charMatch ci p0 c =
                          true := hedit p0 c (by simp) h2 hx.1
                      have hrefl := capStripReflect hword n cs
                        (by simpa using Nat.le_of_succ_le_succ hl) none
                        capStInv_none (p1 :: ps')
                        (List.IsSuffix.trans ⟨[p0], rfl⟩ (List.suffix_refl _))
                        hx.2
                      rw [show capInp none cs = cs from rfl] at hrefl
                      rw [okStripTail_cons_cons, hm1, hrefl] at hstripc
                      exact absurd hstripc (by simp)
                · simpa using hx
              rw [hstripU]
              simp
            · apply ih cs (by simpa using Nat.le_of_succ_le_succ hl) none
                (by intro P' ws' hPw; simp at hPw) (some c) (some (jsUpper c))
                (by rw [show isWordB (some (jsUpper c)) =
                    jsWordChar (jsUpper c) from rfl, hUw,
                  show isWordB (some c) = jsWordChar c from rfl, hcw])
              rw [show capInp none cs = cs from rfl]
              exact hsc2
          · by_cases h3 : isSentSep c
            · rw [capRun_some_cons, if_neg h1, if_neg h2, if_pos h3,
                ← List.cons_append]
              apply hasMatch_nonword_run hp hpw _ hunw
              apply ih cs (by simpa using Nat.le_of_succ_le_succ hl)
                (some (c, []))
                (by
                  intro P' ws' hPw
                  have he1 : c = P' := by
                    injection hPw with h4
                    exact congrArg Prod.fst h4
                  have he2 : ([] : List Char) = ws' := by
                    injection hPw with h5
                    exact congrArg Prod.snd h5
                  rw [← he1, ← he2]
                  exact ⟨h3, by simp⟩)
                (lastPrev prev (P :: ws.reverse))
                (lastPrev prevO (P :: ws.reverse))
                (by rw [lastPrev_base_irrel _ prevO prev (by simp)])
              rw [show capInp (some (c, [])) cs = c :: ([] ++ cs) from rfl,
                List.nil_append]
              rw [hasMatchAux_cons]
              simp only [Bool.or_eq_false_iff]
              exact ⟨hsc1, hsc2⟩
            · rw [capRun_some_cons, if_neg h1, if_neg h2, if_neg h3,
                ← List.cons_append]
              apply hasMatch_nonword_run hp hpw _ hunw
              rw [hasMatchAux_cons]
              simp only [Bool.or_eq_false_iff]
              constructor
              · rw [lastPrev_base_irrel _ prevO prev (by simp)]
                rw [matchWB_isSome] at hsc1 ⊢
                simp only [Bool.and_eq_false_iff] at hsc1 ⊢
                rcases hsc1 with hsc1 | hsc1
                · left
                  exact hsc1
                · right
                  by_cases hx : okStripTail ci p (c :: capRun none cs) = true
                  · have := capStripReflect hword (n + 1) (c :: cs)
                      (by simpa using hl) none capStInv_none p
                      (List.suffix_refl p)
                      (by rw [capRun_none_cons, if_neg h3]; exact hx)
                    rw [show capInp none (c :: cs) = c :: cs from rfl] at this
                    rw [this] at hsc1
                    exact absurd hsc1 (by simp)
                  · simpa using hx
              · apply ih cs (by simpa using Nat.le_of_succ_le_succ hl) none
                  (by intro P' ws' hPw; simp at hPw) (some c) (some c) rfl
                rw [show capInp none cs = cs from rfl]
                exact hsc2

theorem jsSpace_not_sentSep {c : Char} (h : jsSpace c = true) :
    isSentSep c = false := by
  unfold jsSpace at h
  simp only [Bool.or_eq_true, beq_iff_eq] at h
  rcases h with ((((rfl | rfl) | rfl) | rfl) | rfl) | rfl <;> decide


theorem sentSep_not_space {c : Char} (h : isSentSep c = true) :
    jsSpace c = false := by
  unfold isSentSep at h
  simp only [Bool.or_eq_true, beq_iff_eq] at h
  rcases h with (rfl | rfl) | rfl <;> decide

theorem sentSep_not_lower {c : Char} (h : isSentSep c = true) :
    isLowerAlpha c = false := by
  unfold isSentSep at h
  simp only [Bool.or_eq_true, beq_iff_eq] at h
  rcases h with (rfl | rfl) | rfl <;> decide

theorem jsUpper_range {c : Char} (h : isLowerAlpha c = true) :
    65 ≤ (jsUpper c).toNat ∧ (jsUpper c).toNat ≤ 90 := by
  have ht := jsUpper_toNat h
  unfold isLowerAlpha at h
  simp only [Bool.and_eq_true, decide_eq_true_eq] at h
  obtain ⟨h1, h2⟩ := h
  have ha : (97 : Nat) ≤ c.toNat := h1
  have hz : c.toNat ≤ 122 := h2
  omega

theorem jsUpper_not_space {c : Char} (h : isLowerAlpha c = true) :
    jsSpace (jsUpper c) = false := by
  have hU := jsUpper_range h
  simp only [jsSpace, Bool.or_eq_false_iff, beq_eq_false_iff_ne]
  refine ⟨⟨⟨⟨⟨?_, ?_⟩, ?_⟩, ?_⟩, ?_⟩, ?_⟩ <;>
    (intro he; rw [he] at hU; revert hU; decide)

theorem jsUpper_not_lower {c : Char} (h : isLowerAlpha c = true) :
    isLowerAlpha (jsUpper c) = false := by
  have hU := jsUpper_range h
  have hn : ¬ ('a' ≤ jsUpper c) := by
    intro hc
    have hcn : (97 : Nat) ≤ (jsUpper c).toNat := hc
    omega
  unfold isLowerAlpha
  simp [hn]

theorem jsUpper_not_sentSep {c : Char} (h : isLowerAlpha c = true) :
    isSentSep (jsUpper c) = false := by
  have hU := jsUpper_range h
  simp only [isSentSep, Bool.or_eq_false_iff, beq_eq_false_iff_ne]
  refine ⟨⟨?_, ?_⟩, ?_⟩ <;>
    (intro he; rw [he] at hU; revert hU; decide)

theorem capAfterWs_space_skip :
    ∀ (u : List Char), (∀ w ∈ u, jsSpace w = true) →
    ∀ (X : List Char), capAfterWs (u ++ X) = capAfterWs X := by
  intro u
  induction u with
  | nil => intro _ X; rfl
  | cons w u' ih =>
    intro hu X
    have hw : jsSpace w = true := hu w (by simp)
    have h2 := ih (fun x hx => hu x (by simp [hx])) X
    rw [← h2]
    unfold capAfterWs
    rw [List.cons_append, List.dropWhile_cons_of_pos hw]

theorem hasCapMatch_nonpunct_skip :
    ∀ (u : List Char), (∀ w ∈ u, isSentSep w = false) →
    ∀ (X : List Char), hasCapMatch (u ++ X) = hasCapMatch X := by
  intro u
  induction u with
  | nil => intro _ X; rfl
  | cons w u' ih =>
    intro hu X
    have hw : isSentSep w = false := hu w (by simp)
    have h2 := ih (fun x hx => hu x (by simp [hx])) X
    calc hasCapMatch ((w :: u') ++ X)
        = ((isSentSep w && capAfterWs (u' ++ X)) || hasCapMatch (u' ++ X)) := rfl
      _ = hasCapMatch X := by rw [hw, h2]; simp

theorem capAfterWs_all_space {u : List Char}
    (hu : ∀ w ∈ u, jsSpace w = true) : capAfterWs u = false := by
  have h := capAfterWs_space_skip u hu []
  rw [List.append_nil] at h
  rw [h]
  rfl

theorem hasCapMatch_all_space {u : List Char}
    (hu : ∀ w ∈ u, jsSpace w = true) : hasCapMatch u = false := by
  have h := hasCapMatch_nonpunct_skip u
    (fun w hw => jsSpace_not_sentSep (hu w hw)) []
  rw [List.append_nil] at h
  rw [h]
  rfl

theorem capIdent_main : ∀ (n : Nat) (l : List Char), l.length ≤ n →
    (hasCapMatch l = false → capRun none l = l) ∧
    (∀ P ws, (∀ w ∈ ws, jsSpace w = true) →
      capAfterWs (ws.reverse ++ l) = false → hasCapMatch l = false →
      capRun (some (P, ws)) l = P :: (ws.reverse ++ l)) := by
  intro n
  induction n with
  | zero =>
    intro l hl
    cases l with
    | cons c cs => simp at hl
    | nil =>
      refine ⟨fun _ => rfl, fun P ws _ _ _ => ?_⟩
      show P :: ws.reverse = P :: (ws.reverse ++ [])
      rw [List.append_nil]
  | succ n ih =>
    intro l hl
    cases l with
    | nil =>
      refine ⟨fun _ => rfl, fun P ws _ _ _ => ?_⟩
      show P :: ws.reverse = P :: (ws.reverse ++ [])
      rw [List.append_nil]
    | cons c cs =>
      have hlen : cs.length ≤ n := by
        have h1 : cs.length + 1 ≤ n + 1 := by simpa using hl
        omega
      constructor
      · intro hm
        have hm2 : hasCapMatch cs = false := by
          simp only [hasCapMatch, Bool.or_eq_false_iff] at hm
          exact hm.2
        have hm1 : (isSentSep c && capAfterWs cs) = false := by
          simp only [hasCapMatch, Bool.or_eq_false_iff] at hm
          exact hm.1
        by_cases hsep : isSentSep c = true
        · have hcap : capAfterWs cs = false := by
            rw [hsep] at hm1
            simpa using hm1
          have hrec := (ih cs hlen).2 c []
            (by intro w hw; simp at hw)
            (by simpa using hcap) hm2
          rw [capRun_none_cons, if_pos hsep, hrec]
          simp
        · rw [capRun_none_cons, if_neg hsep]
          rw [(ih cs hlen).1 hm2]
      · intro P ws hws hcap hm
        have hm2 : hasCapMatch cs = false := by
          simp only [hasCapMatch, Bool.or_eq_false_iff] at hm
          exact hm.2
        have hm1 : (isSentSep c && capAfterWs cs) = false := by
          simp only [hasCapMatch, Bool.or_eq_false_iff] at hm
          exact hm.1
        have hwsr : ∀ w ∈ ws.reverse, jsSpace w = true := by
          intro w hw
          exact hws w (List.mem_reverse.mp hw)
        have hcap2 : capAfterWs (c :: cs) = false := by
          rw [capAfterWs_space_skip ws.reverse hwsr (c :: cs)] at hcap
          exact hcap
        by_cases hsp : jsSpace c = true
        · have hrec := (ih cs hlen).2 P (c :: ws)
            (by intro w hw
                rcases List.mem_cons.mp hw with rfl | hw2
                · exact hsp
                · exact hws w hw2)
            (by rw [List.reverse_cons, List.append_assoc]
                simpa using hcap)
            hm2
          rw [capRun_some_cons, if_pos hsp, hrec]
          simp
        · have hsp' : jsSpace c = false := by simpa using hsp
          rw [capRun_some_cons, if_neg hsp]
          by_cases hlo : isLowerAlpha c = true
          · exfalso
            unfold capAfterWs at hcap2
            rw [List.dropWhile_cons_of_neg (by simp [hsp'])] at hcap2
            have hlo' : isLowerAlpha c = false := hcap2
            rw [hlo] at hlo'
            exact absurd hlo' (by simp)
          · rw [if_neg hlo]
            by_cases hsep : isSentSep c = true
            · have hcap3 : capAfterWs cs = false := by
                rw [hsep] at hm1
                simpa using hm1
              have hrec := (ih cs hlen).2 c []
                (by intro w hw; simp at hw)
                (by simpa using hcap3) hm2
              rw [if_pos hsep, hrec]
              simp
            · rw [if_neg hsep, (ih cs hlen).1 hm2]

theorem capSelf_main : ∀ (n : Nat) (l : List Char), l.length ≤ n →
    hasCapMatch (capRun none l) = false ∧
    (∀ P ws, (∀ w ∈ ws, jsSpace w = true) →
      hasCapMatch (capRun (some (P, ws)) l) = false) := by
  intro n
  induction n with
  | zero =>
    intro l hl
    cases l with
    | cons c cs => simp at hl
    | nil =>
      constructor
      · rfl
      · intro P ws hws
        show hasCapMatch (P :: ws.reverse) = false
        simp only [hasCapMatch]
        rw [capAfterWs_all_space (fun w hw => hws w (List.mem_reverse.mp hw)),
          hasCapMatch_all_space (fun w hw => hws w (List.mem_reverse.mp hw))]
        simp
  | succ n ih =>
    intro l hl
    cases l with
    | nil =>
      constructor
      · rfl
      · intro P ws hws
        show hasCapMatch (P :: ws.reverse) = false
        simp only [hasCapMatch]
        rw [capAfterWs_all_space (fun w hw => hws w (List.mem_reverse.mp hw)),
          hasCapMatch_all_space (fun w hw => hws w (List.mem_reverse.mp hw))]
        simp
    | cons c cs =>
      have hlen : cs.length ≤ n := by
        have h1 : cs.length + 1 ≤ n + 1 := by simpa using hl
        omega
      constructor
      · rw [capRun_none_cons]
        by_cases hsep : isSentSep c = true
        · rw [if_pos hsep]
          exact (ih cs hlen).2 c [] (by intro w hw; simp at hw)
        · rw [if_neg hsep]
          have hsep' : isSentSep c = false := by simpa using hsep
          simp only [hasCapMatch]
          rw [hsep', (ih cs hlen).1]
          simp
      · intro P ws hws
        rw [capRun_some_cons]
        by_cases hsp : jsSpace c = true
        · rw [if_pos hsp]
          exact (ih cs hlen).2 P (c :: ws)
            (by intro w hw
                rcases List.mem_cons.mp hw with rfl | hw2
                · exact hsp
                · exact hws w hw2)
        · rw [if_neg hsp]
          have hsp' : jsSpace c = false := by simpa using hsp
          have hgw : ∀ w ∈ ws.reverse, jsSpace w = true :=
            fun w hw => hws w (List.mem_reverse.mp hw)
          have hgs : ∀ w ∈ ws.reverse, isSentSep w = false :=
            fun w hw => jsSpace_not_sentSep (hgw w hw)
          by_cases hlo : isLowerAlpha c = true
          · rw [if_pos hlo]
            have hT := (ih cs hlen).1
            have hU1 := jsUpper_not_space hlo
            have hU2 := jsUpper_not_lower hlo
            have hU3 := jsUpper_not_sentSep hlo
            have hcap1 : capAfterWs (' ' :: jsUpper c :: capRun none cs) = false := by
              unfold capAfterWs
              rw [List.dropWhile_cons_of_pos (by decide),
                List.dropWhile_cons_of_neg (by simp [hU1])]
              exact hU2
            simp only [hasCapMatch]
            rw [hcap1, show isSentSep ' ' = false by decide, hU3, hT]
            simp
          · rw [if_neg hlo]
            have hlo' : isLowerAlpha c = false := by simpa using hlo
            by_cases hsep : isSentSep c = true
            · rw [if_pos hsep]
              have hrec := (ih cs hlen).2 c [] (by intro w hw; simp at hw)
              have hh := capRun_some_head c cs []
              obtain ⟨t, hXt⟩ : ∃ t, capRun (some (c, [])) cs = c :: t := by
                cases hX : capRun (some (c, [])) cs with
                | nil => rw [hX] at hh; simp at hh
                | cons d t =>
                  rw [hX] at hh
                  have hd : d = c := by simpa using hh
                  exact ⟨t, by rw [hd]⟩
              have hcapX : capAfterWs (capRun (some (c, [])) cs) = false := by
                rw [hXt]
                unfold capAfterWs
                rw [List.dropWhile_cons_of_neg (by simp [sentSep_not_space hsep])]
                exact sentSep_not_lower hsep
              simp only [hasCapMatch]
              rw [capAfterWs_space_skip ws.reverse hgw,
                hasCapMatch_nonpunct_skip ws.reverse hgs,
                hcapX, hrec]
              simp
            · rw [if_neg hsep]
              have hsep' : isSentSep c = false := by simpa using hsep
              have hcapX : capAfterWs (c :: capRun none cs) = false := by
                unfold capAfterWs
                rw [List.dropWhile_cons_of_neg (by simp [hsp'])]
                exact hlo'
              simp only [hasCapMatch]
              rw [capAfterWs_space_skip ws.reverse hgw,
                hasCapMatch_nonpunct_skip ws.reverse hgs]
              simp only [hasCapMatch]
              rw [hcapX, hsep', (ih cs hlen).1]
              simp

theorem capIdent {l : List Char} (h : hasCapMatch l = false) :
    capAfterPunct l = l :=
  (capIdent_main l.length l le_rfl).1 h

theorem capSelf (l : List Char) :
    hasCapMatch (capAfterPunct l) = false :=
  (capSelf_main l.length l le_rfl).1

theorem capAfterPunct_preserves_clean {ci : Bool} {p : List Char} (hp : p ≠ [])
    (hword : ∀ pk ∈ p, jsWordChar pk = true)
    (hedit : ∀ pk c, pk ∈ p → isLowerAlpha c = true →
      charMatch ci pk (jsUpper c) = true → charMatch ci pk c = true)
    {l : List Char} (hclean : hasMatchAux ci p none l = false) :
    hasMatchAux ci p none (capAfterPunct l) = false :=
  capPreserve hp hword hedit l.length l le_rfl none
    (fun P ws h => by simp at h) none none rfl hclean

theorem replaceWB_noMatch {ci : Bool} {p r : List Char} {s : List Char}
    (h : hasMatchAux ci p none s = false) : replaceWB ci p r s = s :=
  noMatch_id s none h

theorem replaceWB_cross_clean_cs {ci : Bool} {p : List Char}
    {rule : String × String} (hOK : crossOK ci p rule = true)
    {s : List Char} (hclean : hasMatchAux ci p none s = false) :
    hasMatchAux ci p none (replaceWB false rule.1.toList rule.2.toList s) = false := by
  obtain ⟨_, h2, h3, h4, h5, h6, h7, h8⟩ := crossOK_spec hOK
  exact crossClean h3 h4 h2 h5 h6 h7 h8 s.length s le_rfl none none rfl hclean

theorem replaceWB_self_clean_cs {rule : String × String}
    (hOK : crossOK false rule.1.toList rule = true) (s : List Char) :
    hasMatchAux false rule.1.toList none
      (replaceWB false rule.1.toList rule.2.toList s) = false := by
  obtain ⟨_, h2, h3, h4, h5, h6, h7, h8⟩ := crossOK_spec hOK
  exact selfClean h3 h4 h2 h5 h6 h7 h8 s.length s le_rfl none none rfl

theorem hedit_ci {p : List Char} :
    ∀ pk c, pk ∈ p → isLowerAlpha c = true →
      charMatch true pk (jsUpper c) = true → charMatch true pk c = true := by
  intro pk c _ hlc hm
  unfold charMatch at hm ⊢
  rw [if_pos rfl] at hm ⊢
  rw [jsLower_jsUpper hlc] at hm
  rw [jsLower_lower hlc]
  exact hm

theorem hedit_i :
    ∀ pk c, pk ∈ ("i".toList : List Char) → isLowerAlpha c = true →
      charMatch false pk (jsUpper c) = true → charMatch false pk c = true := by
  intro pk c hpk hlc hm
  have hpk' : pk = 'i' := by simpa using hpk
  subst hpk'
  exfalso
  unfold charMatch at hm
  rw [if_neg (by simp)] at hm
  have he : 'i' = jsUpper c := by simpa using hm
  have hU := jsUpper_range hlc
  rw [← he] at hU
  revert hU
  decide

/-- The character-list pipeline of `getFallbackProofreading`: the
`corrections` dictionary, then the case-sensitive `/\bi\b/g → "I"` rule,
then the capitalize-after-punctuation pass. -/
def proofreadPipe (l : List Char) : List Char :=
  capAfterPunct (replaceWB false "i".toList "I".toList (applyRules corrections l))

set_option maxHeartbeats 2000000 in
theorem proofreadPipe_idem (l : List Char) :
    proofreadPipe (proofreadPipe l) = proofreadPipe l := by
  have hcw : ∀ ru ∈ corrections, ru.1.toList ≠ [] ∧
      ∀ pk ∈ ru.1.toList, jsWordChar pk = true := by
    intro ru hru
    have hall : corrections.all
        (fun ru => !ru.1.toList.isEmpty && ru.1.toList.all jsWordChar) = true := by decide
    have h2 := List.all_eq_true.mp hall ru hru
    simp only [Bool.and_eq_true] at h2
    obtain ⟨hne, hw⟩ := h2
    constructor
    · intro he
      rw [he] at hne
      simp at hne
    · intro pk hpk
      exact List.all_eq_true.mp hw pk hpk
  have hIok : ∀ ru ∈ corrections, crossOK true ru.1.toList ("i", "I") = true := by
    intro ru hru
    have hall : corrections.all
        (fun ru => crossOK true ru.1.toList ("i", "I")) = true := by decide
    exact List.all_eq_true.mp hall ru hru
  have hA0 := applyRules_all_clean corrections (by decide) l
  have hA1 : ∀ ru ∈ corrections, hasMatchAux true ru.1.toList none
      (replaceWB false "i".toList "I".toList (applyRules corrections l)) = false := by
    intro ru hru
    exact replaceWB_cross_clean_cs (hIok ru hru) (hA0 ru hru)
  have hA2 : ∀ ru ∈ corrections, hasMatchAux true ru.1.toList none
      (proofreadPipe l) = false := by
    intro ru hru
    exact capAfterPunct_preserves_clean (hcw ru hru).1 (hcw ru hru).2 hedit_ci
      (hA1 ru hru)
  have hB1 : hasMatchAux false "i".toList none
      (replaceWB false "i".toList "I".toList (applyRules corrections l)) = false :=
    @replaceWB_self_clean_cs ("i", "I") (by decide) (applyRules corrections l)
  have hB2 : hasMatchAux false "i".toList none (proofreadPipe l) = false :=
    capAfterPunct_preserves_clean (by decide) (by decide) hedit_i hB1
  have hC : hasCapMatch (proofreadPipe l) = false := capSelf _
  show capAfterPunct (replaceWB false "i".toList "I".toList
      (applyRules corrections (proofreadPipe l))) = proofreadPipe l
  rw [applyRules_id_of_clean corrections (proofreadPipe l) hA2,
    replaceWB_noMatch hB2]
  exact capIdent hC

theorem getFallbackProofreading_idem (x : String) :
    getFallbackProofreading (getFallbackProofreading x) = getFallbackProofreading x := by
  unfold getFallbackProofreading
  rw [toList_mk]
  exact congrArg String.mk (proofreadPipe_idem x.toList)

/-- C8: The Proofread and Rewrite fallback transformers are idempotent:
for every input `x`, applying the fallback to its own output gives the same
result — `getFallbackProofreading (getFallbackProofreading x) =
getFallbackProofreading x` and `getFallbackRewriting (getFallbackRewriting x)
= getFallbackRewriting x` — so there are no oscillating substitutions. -/
theorem fallback_idempotent (x : String) :
    getFallbackProofreading (getFallbackProofreading x) = getFallbackProofreading x ∧
    getFallbackRewriting (getFallbackRewriting x) = getFallbackRewriting x :=
  ⟨getFallbackProofreading_idem x, getFallbackRewriting_idem x⟩
